import Mathlib

/-!
Verification of the central processing and normalization node
(central_processing.py): address normalization, cross-platform property
matching, data consolidation, classification and the grouping
orchestrator.

Modelling conventions for the shallow embedding:
* Python strings are Lean strings; character-level work happens on
  List Char.  The regex character class backslash-w is modelled as ASCII
  alphanumeric plus underscore, and Python upper() as ASCII uppercasing
  (the repository only processes ASCII addresses).
* Python floats are modelled as rationals; all the arithmetic the code
  performs on them (sums of decimal weights, variance ratios and
  comparisons against decimal thresholds) is exact at the values the
  claims exercise.
* Python dicts holding listing fields are association lists
  (List (String x Value)); a key is present iff lookup returns some.
* datetime values are modelled as natural numbers (ordered instants);
  the utcnow() isoformat string produced inside the classifier is an
  explicit `now` parameter.
* Code paths on which Python raises TypeError (comparing numbers with
  strings inside max/min) are modelled with Except; code paths where a
  string method is called on a number (which would raise in Python, and
  which no claim exercises) are totalized by printing the number.
-/

namespace Fastpeer

/-- Field values stored in listing dictionaries: numbers (Python
int/float, modelled as rationals) or strings. -/
inductive Value where
  | num (q : ℚ)
  | str (s : String)
deriving DecidableEq, Repr

/-- A Python dict from field names to values, as an association list. -/
abbrev Dict := List (String × Value)

/-- dict.get(k): first binding wins (keys are unique in practice). -/
def dget (d : Dict) (k : String) : Option Value :=
  List.lookup k d

/-- dict.get(k, default). -/
def dgetD (d : Dict) (k : String) (v : Value) : Value :=
  (dget d k).getD v

/-- Python truthiness for the two value kinds: 0 and the empty string
are falsy. -/
def pyTruthy : Value → Bool
  | .num q => q ≠ 0
  | .str s => s ≠ ""

/-- Truthiness of a dict lookup result: a missing key (None) is falsy. -/
def pyTruthyO : Option Value → Bool
  | none => false
  | some v => pyTruthy v

/-- Python `a or b` where a is an optional lookup and b a value. -/
def pyOrV (a : Option Value) (b : Value) : Value :=
  match a with
  | some v => if pyTruthy v then v else b
  | none => b

/-- Python `a or b` on two optional lookups: the first truthy value,
else the second lookup result (which may itself be missing or falsy). -/
def pyOrO (a b : Option Value) : Option Value :=
  match a with
  | some v => if pyTruthy v then some v else b
  | none => b

/-- Python str() totalization for values; on strings it is the string
itself (the only case the code reaches with well-typed data). -/
def asStr : Value → String
  | .str s => s
  | .num q => toString q

/-- Python == between dict values: numbers compare with numbers,
strings with strings, and a number never equals a string. -/
def pyEq : Value → Value → Bool
  | .num a, .num b => a = b
  | .str a, .str b => a = b
  | _, _ => false

/-! ### Character classes (ASCII model of the regex classes) -/

/-- The regex class backslash-w (word character): ASCII letters, digits
and underscore. -/
def isWordChar (c : Char) : Bool :=
  c.isAlphanum || c = '_'

/-- The regex class backslash-s restricted to the ASCII whitespace
Python treats as such. -/
def pyIsSpace (c : Char) : Bool :=
  c = ' ' || c = '\t' || c = '\n' || c = '\x0d' || c = '\x0b' || c = '\x0c'

/-- ASCII model of Python str.upper applied per character. -/
def pyUpper (c : Char) : Char :=
  if c.isLower then Char.ofNat (c.toNat - 32) else c

/-! ### String helpers shared by several regex substitutions -/

/-- str.strip(): drop leading and trailing whitespace. -/
def stripChars (l : List Char) : List Char :=
  ((l.dropWhile pyIsSpace).reverse.dropWhile pyIsSpace).reverse

/-- The whitespace-collapsing scan: the flag records whether the
previous character was whitespace (so later characters of the same run
are dropped rather than emitted). -/
def collapseAux (inSpace : Bool) : List Char → List Char
  | [] => []
  | c :: cs =>
    if pyIsSpace c then
      if inSpace then collapseAux true cs else ' ' :: collapseAux true cs
    else c :: collapseAux false cs

/-- re.sub of one-or-more-whitespace with a single space: every maximal
whitespace run becomes one space. -/
def collapseWs (l : List Char) : List Char :=
  collapseAux false l

/-- re.sub removing every character outside word chars, whitespace and
hyphen (the punctuation stripping pass). -/
def punctFilter (l : List Char) : List Char :=
  l.filter (fun c => isWordChar c || pyIsSpace c || c = '-')

/-- Substring test, Python `needle in haystack`. -/
def containsSub : List Char → List Char → Bool
  | [], n => n.isEmpty
  | c :: t, n => n.isPrefixOf (c :: t) || containsSub t n

/-! ### Maximal word-run chunking

A whole-word regex substitution on a key made of word characters
rewrites exactly the maximal word-character runs equal to the key, so
each such re.sub pass is modelled by splitting the string into maximal
word runs and single separator characters, mapping the word runs, and
re-joining. -/

/-- One chunk of a string: a maximal run of word characters, or a
single non-word character. -/
inductive Chunk where
  | word (t : List Char)
  | sep (c : Char)
deriving DecidableEq, Repr

/-- Split a string into maximal word runs and single separators: a word
character merges into the word run that follows it, anything else is a
separator of its own. -/
def chunks : List Char → List Chunk
  | [] => []
  | c :: cs =>
    if isWordChar c then
      match chunks cs with
      | Chunk.word t :: rest => Chunk.word (c :: t) :: rest
      | r => Chunk.word [c] :: r
    else Chunk.sep c :: chunks cs

/-- Re-join chunks into a string. -/
def joinChunks : List Chunk → List Char
  | [] => []
  | Chunk.word t :: rest => t ++ joinChunks rest
  | Chunk.sep c :: rest => c :: joinChunks rest

/-- Map a function over the word chunks, leaving separators alone. -/
def mapWord (f : List Char → List Char) : Chunk → Chunk
  | Chunk.word t => Chunk.word (f t)
  | Chunk.sep c => Chunk.sep c

/-- Whether a chunk list starts with a word run. -/
def headIsWord : List Chunk → Bool
  | Chunk.word _ :: _ => true
  | _ => false

/-- Well-formedness of a chunk list: word runs are nonempty and made of
word characters, separators are single non-word characters, and no two
word runs are adjacent (each run is maximal). -/
def chunksWF : List Chunk → Bool
  | [] => true
  | Chunk.word t :: rest => !t.isEmpty && t.all isWordChar && !headIsWord rest && chunksWF rest
  | Chunk.sep c :: rest => !isWordChar c && chunksWF rest

/-- One whole-word re.sub pass: replace every maximal word run equal to
key by its replacement. -/
def replaceWord (key repl : List Char) (l : List Char) : List Char :=
  joinChunks ((chunks l).map (mapWord (fun t => if t = key then repl else t)))

/-- Sequential whole-word substitutions, one per table entry, in table
order (the source iterates its dictionaries in insertion order). -/
def applyTable (table : List (List Char × List Char)) (l : List Char) : List Char :=
  table.foldl (fun s p => replaceWord p.1 p.2 s) l

/-- STREET_SUFFIXES in source order. -/
def streetSuffixTable : List (List Char × List Char) :=
  [ (['S','T'], ['S','T','R','E','E','T']),
    (['A','V','E'], ['A','V','E','N','U','E']),
    (['B','L','V','D'], ['B','O','U','L','E','V','A','R','D']),
    (['D','R'], ['D','R','I','V','E']),
    (['R','D'], ['R','O','A','D']),
    (['L','N'], ['L','A','N','E']),
    (['C','T'], ['C','O','U','R','T']),
    (['P','L'], ['P','L','A','C','E']),
    (['T','E','R'], ['T','E','R','R','A','C','E']),
    (['W','A','Y'], ['W','A','Y']),
    (['C','I','R'], ['C','I','R','C','L','E']),
    (['P','K','W','Y'], ['P','A','R','K','W','A','Y']) ]

/-- DIRECTIONALS in source order. -/
def directionalTable : List (List Char × List Char) :=
  [ (['N'], ['N','O','R','T','H']),
    (['S'], ['S','O','U','T','H']),
    (['E'], ['E','A','S','T']),
    (['W'], ['W','E','S','T']),
    (['N','E'], ['N','O','R','T','H','E','A','S','T']),
    (['N','W'], ['N','O','R','T','H','W','E','S','T']),
    (['S','E'], ['S','O','U','T','H','E','A','S','T']),
    (['S','W'], ['S','O','U','T','H','W','E','S','T']) ]

/-- The leading-zero rule applied to one word run: the regex matches
exactly the maximal word runs that are all digits, start with a zero
and have at least two characters, and strips the leading zeros (keeping
one digit when the run is all zeros, since the capture group needs at
least one digit). -/
def zfix (t : List Char) : List Char :=
  if t.all Char.isDigit && (t.head? = some '0') && decide (2 ≤ t.length) then
    let r := t.dropWhile (fun c => c = '0')
    if r.isEmpty then ['0'] else r
  else t

/-- The leading-zero re.sub pass over the whole string. -/
def stripZeros (l : List Char) : List Char :=
  joinChunks ((chunks l).map (mapWord zfix))

/-- The per-token effect of a table of sequential whole-word
substitutions. -/
def tableFun (table : List (List Char × List Char)) (t : List Char) : List Char :=
  table.foldl (fun acc p => if acc = p.1 then p.2 else acc) t

/-- The composite per-token effect of the three token passes: suffix
expansion, then directional expansion, then leading-zero stripping. -/
def tokFix (t : List Char) : List Char :=
  zfix (tableFun directionalTable (tableFun streetSuffixTable t))

/-! ### The unit-designator substitution

re.sub of a word boundary, one of UNIT, APT, SUITE, STE or the hash
sign, then any following whitespace, replaced by the five characters
UNIT-space.  The pattern has no trailing word boundary, so a marker may
match as a proper prefix of a longer word run.  The scan is modelled
directly: at each position the boundary is tested against the previous
original character, the alternatives are tried in pattern order, and on
a match the scan resumes after the consumed characters. -/

def unitMarkers : List (List Char) :=
  [ ['U','N','I','T'], ['A','P','T'], ['S','U','I','T','E'], ['S','T','E'], ['#'] ]

/-- Word-boundary test between an optional previous character (none at
the string edge) and the current character. -/
def wordBoundary (prev : Option Char) (cur : Char) : Bool :=
  (match prev with | none => false | some p => isWordChar p) != isWordChar cur

/-- The replacement text UNIT-space. -/
def unitRepl : List Char := ['U','N','I','T',' ']

/-- The scanning loop of the unit-designator re.sub: at each position
the word boundary is tested against the previously consumed character
and the alternatives UNIT, APT, SUITE, STE and hash are tried in
pattern order; a match emits the replacement, consumes the marker and
the following whitespace (the skip flag), and the scan resumes after
the consumed characters.  The fuel argument (the length of the string
at the top call) only makes the recursion structural; every step
consumes at least one character, so it never runs out. -/
def unitScanF : ℕ → Option Char → Bool → List Char → List Char
  | 0, _, _, _ => []
  | _ + 1, _, _, [] => []
  | fuel + 1, prev, skip, c :: cs =>
    if skip && pyIsSpace c then unitScanF fuel (some c) true cs
    else if c = 'U' then
      match cs with
      | 'N' :: 'I' :: 'T' :: rest =>
        if wordBoundary prev c then unitRepl ++ unitScanF fuel (some 'T') true rest
        else c :: unitScanF fuel (some c) false cs
      | _ => c :: unitScanF fuel (some c) false cs
    else if c = 'A' then
      match cs with
      | 'P' :: 'T' :: rest =>
        if wordBoundary prev c then unitRepl ++ unitScanF fuel (some 'T') true rest
        else c :: unitScanF fuel (some c) false cs
      | _ => c :: unitScanF fuel (some c) false cs
    else if c = 'S' then
      match cs with
      | 'U' :: 'I' :: 'T' :: 'E' :: rest =>
        if wordBoundary prev c then unitRepl ++ unitScanF fuel (some 'E') true rest
        else c :: unitScanF fuel (some c) false cs
      | 'T' :: 'E' :: rest =>
        if wordBoundary prev c then unitRepl ++ unitScanF fuel (some 'E') true rest
        else c :: unitScanF fuel (some c) false cs
      | _ => c :: unitScanF fuel (some c) false cs
    else if c = '#' then
      if wordBoundary prev c then unitRepl ++ unitScanF fuel (some '#') true cs
      else c :: unitScanF fuel (some c) false cs
    else c :: unitScanF fuel (some c) false cs

/-- The unit-designator re.sub over a whole string. -/
def unitSub (l : List Char) : List Char :=
  unitScanF l.length none false l

/-! ### AddressNormalizer.normalize_address -/

/-- The composed normalization pipeline on character lists, in source
order: uppercase and strip, collapse whitespace, remove punctuation,
expand street suffixes, expand directionals, strip leading zeros,
canonicalize unit designators, strip. -/
def normalizeChars (l : List Char) : List Char :=
  if l.isEmpty then [] else
    stripChars
      (unitSub
        (stripZeros
          (applyTable directionalTable
            (applyTable streetSuffixTable
              (punctFilter
                (collapseWs
                  (stripChars (l.map pyUpper))))))))

/-- AddressNormalizer.normalize_address. -/
def normalize_address (s : String) : String :=
  ⟨normalizeChars s.data⟩

/-! ### AddressNormalizer.extract_address_components -/

/-- The component dictionary produced by extract_address_components. -/
structure AddressComponents where
  full_address : String
  street : String
  city : String
  state : String
  zip : String
deriving DecidableEq, Repr

/-- re.match of two capital letters, optional whitespace, then an
optional five-digit ZIP optionally extended by hyphen and four digits;
returns the state group and the optional ZIP group.  None when the two
leading capitals are missing (the rest of the pattern is optional). -/
def parseStateZip (l : List Char) : Option (String × Option String) :=
  match l with
  | c1 :: c2 :: rest =>
    if c1.isUpper && c2.isUpper then
      let r1 := rest.dropWhile pyIsSpace
      let zip5 := r1.take 5
      if zip5.length = 5 && zip5.all Char.isDigit then
        match r1.drop 5 with
        | '-' :: d1 :: d2 :: d3 :: d4 :: _ =>
          if [d1, d2, d3, d4].all Char.isDigit then
            some (⟨[c1, c2]⟩, some ⟨zip5 ++ '-' :: [d1, d2, d3, d4]⟩)
          else some (⟨[c1, c2]⟩, some ⟨zip5⟩)
        | _ => some (⟨[c1, c2]⟩, some ⟨zip5⟩)
      else some (⟨[c1, c2]⟩, none)
    else none
  | _ => none

/-- AddressNormalizer.extract_address_components: split on commas
(parts stripped), then street, city and a state-ZIP third part. -/
def extract_address_components (address : String) : AddressComponents :=
  let parts := (address.splitOn ",").map (fun p => (⟨stripChars p.data⟩ : String))
  let street := if 1 ≤ parts.length then parts.getD 0 "" else ""
  let city := if 2 ≤ parts.length then parts.getD 1 "" else ""
  let sz :=
    if 3 ≤ parts.length then
      parseStateZip (stripChars (parts.getD 2 "").data)
    else none
  match sz with
  | some (st, some z) => ⟨address, street, city, st, z⟩
  | some (st, none) => ⟨address, street, city, st, ""⟩
  | none => ⟨address, street, city, "", ""⟩

/-! ### Numeric parsing helpers (Python float and int conversions) -/

/-- Decimal digits to a natural number. -/
def natOfDigits (l : List Char) : ℕ :=
  l.foldl (fun a c => 10 * a + (c.toNat - 48)) 0

/-- Unsigned decimal literal: digits, optionally with one dot and a
fractional part (at least one digit overall, nothing else). -/
def parseUnsignedDec (l : List Char) : Option ℚ :=
  let ip := l.takeWhile Char.isDigit
  match l.drop ip.length with
  | [] => if ip.isEmpty then none else some (natOfDigits ip)
  | '.' :: fr =>
    if fr.all Char.isDigit && !(ip.isEmpty && fr.isEmpty) then
      some ((natOfDigits ip : ℚ) + (natOfDigits fr : ℚ) / (10 : ℚ) ^ fr.length)
    else none
  | _ => none

/-- Python float() on a string: surrounding whitespace, an optional
sign, then a plain decimal literal (the exponent, infinity and nan
forms float() also accepts are outside the data this pipeline sees). -/
def pyFloatOfString (s : String) : Option ℚ :=
  match stripChars s.data with
  | '+' :: r => parseUnsignedDec r
  | '-' :: r => (parseUnsignedDec r).map Neg.neg
  | r => parseUnsignedDec r

/-- Python float() on a dict value: identity on numbers, parsing on
strings (None on ValueError). -/
def toQ : Value → Option ℚ
  | .num q => some q
  | .str s => pyFloatOfString s

/-- Python int() on a string: surrounding whitespace, optional sign,
then decimal digits only. -/
def pyIntOfString (s : String) : Option ℤ :=
  match stripChars s.data with
  | '+' :: r => if !r.isEmpty && r.all Char.isDigit then some (natOfDigits r) else none
  | '-' :: r => if !r.isEmpty && r.all Char.isDigit then some (-(natOfDigits r : ℤ)) else none
  | r => if !r.isEmpty && r.all Char.isDigit then some (natOfDigits r) else none

/-- Python int() on a dict value: floats truncate toward zero, strings
must be integer literals (None on ValueError). -/
def pyIntV : Value → Option ℤ
  | .num q => some (Int.tdiv q.num q.den)
  | .str s => pyIntOfString s

/-! ### PropertyMatcher.calculate_match_score -/

/-- The address expression both the address signal and the component
fallback use: the address_full field, falling back to the address field
with an empty-string default. -/
def fullAddrValue (d : Dict) : Value :=
  pyOrV (dget d "address_full") (dgetD d "address" (.str ""))

/-- normalize_address applied to a dict value: the falsy early return
of normalize_address covers falsy values of either kind; Python would
raise on a nonzero number (no code path reaches that), totalized by
printing it. -/
def normalizeValue (v : Value) : String :=
  match v with
  | .str s => normalize_address s
  | .num q => if q = 0 then "" else normalize_address (toString q)

/-- ASCII model of str.upper on strings. -/
def pyUpperStr (s : String) : String :=
  ⟨s.data.map pyUpper⟩

/-- Address signal: full weight on equality of the normalized strings,
three quarters of it when one contains the other, nothing otherwise or
when either is empty. -/
def addrScore (a1 a2 : String) : ℚ :=
  if a1 ≠ "" ∧ a2 ≠ "" then
    if a1 = a2 then 2/5
    else if containsSub a2.data a1.data ∨ containsSub a1.data a2.data then 3/10
    else 0
  else 0

/-- Per-listing city, state and ZIP resolution: structured fields
first; when city or state is missing, fall back per field to the
components extracted from the full address. -/
def locationValues (d : Dict) : Value × Value × Value :=
  let c := pyOrV (dget d "address_city") (.str "")
  let st := pyOrV (dget d "address_state") (.str "")
  let z := pyOrV (dget d "address_zip") (.str "")
  if ¬ pyTruthy c ∨ ¬ pyTruthy st then
    let comp := extract_address_components (asStr (fullAddrValue d))
    (if pyTruthy c then c else .str comp.city,
     if pyTruthy st then st else .str comp.state,
     if pyTruthy z then z else .str comp.zip)
  else (c, st, z)

/-- City/state/ZIP signal: case-insensitive city and state matches and
an exact ZIP match, each contributing only when both sides are
truthy. -/
def locScore (p1 p2 : Value × Value × Value) : ℚ :=
  (if pyTruthy p1.1 ∧ pyTruthy p2.1 ∧
      pyUpperStr (asStr p1.1) = pyUpperStr (asStr p2.1) then 7/100 else 0)
  + (if pyTruthy p1.2.1 ∧ pyTruthy p2.2.1 ∧
      pyUpperStr (asStr p1.2.1) = pyUpperStr (asStr p2.2.1) then 7/100 else 0)
  + (if pyTruthy p1.2.2 ∧ pyTruthy p2.2.2 ∧ pyEq p1.2.2 p2.2.2 = true then 3/50 else 0)

/-- Per-listing property type: homeType falling back to property_type,
uppercased when truthy, else empty. -/
def typeString (d : Dict) : String :=
  let t := pyOrV (dget d "homeType") (dgetD d "property_type" (.str ""))
  if pyTruthy t then pyUpperStr (asStr t) else ""

/-- Property-type signal: exact match of the uppercased strings. -/
def typeScore (t1 t2 : String) : ℚ :=
  if t1 ≠ "" ∧ t2 ≠ "" ∧ t1 = t2 then 3/20 else 0

/-- Per-listing size: area, falling back to square_feet, then sqft. -/
def sizeValue (d : Dict) : Option Value :=
  pyOrO (pyOrO (dget d "area") (dget d "square_feet")) (dget d "sqft")

/-- The size variance banding on two parsed numbers: relative variance
under 5, 10 or 15 percent earns the three bands; a zero maximum is the
caught ZeroDivisionError, contributing nothing. -/
def sizeBand (x y : ℚ) : ℚ :=
  if max x y = 0 then 0
  else
    let v := |x - y| / max x y
    if v < 1/20 then 3/20
    else if v < 1/10 then 1/10
    else if v < 3/20 then 1/20
    else 0

/-- The size banding after parsing: a failed parse on either side is
the caught ValueError, contributing nothing. -/
def sizePair : Option ℚ → Option ℚ → ℚ
  | some x, some y => sizeBand x y
  | _, _ => 0

/-- Size signal: both sides present and truthy, then parse and band. -/
def sizeScore : Option Value → Option Value → ℚ
  | some v1, some v2 => if pyTruthy v1 ∧ pyTruthy v2 then sizePair (toQ v1) (toQ v2) else 0
  | _, _ => 0

/-- Per-listing price: unformattedPrice falling back to price. -/
def priceValue (d : Dict) : Option Value :=
  pyOrO (dget d "unformattedPrice") (dget d "price")

/-- The price variance banding: relative variance under 5 or 20
percent. -/
def priceBand (x y : ℚ) : ℚ :=
  if max x y = 0 then 0
  else
    let v := |x - y| / max x y
    if v < 1/20 then 1/10
    else if v < 1/5 then 1/20
    else 0

/-- The price banding after parsing. -/
def pricePair : Option ℚ → Option ℚ → ℚ
  | some x, some y => priceBand x y
  | _, _ => 0

/-- Price signal: both sides present and truthy, then parse and band. -/
def priceScore : Option Value → Option Value → ℚ
  | some v1, some v2 => if pyTruthy v1 ∧ pyTruthy v2 then pricePair (toQ v1) (toQ v2) else 0
  | _, _ => 0

/-- PropertyMatcher.calculate_match_score: the weighted sum of the five
signals. -/
def calculate_match_score (l1 l2 : Dict) : ℚ :=
  addrScore (normalizeValue (fullAddrValue l1)) (normalizeValue (fullAddrValue l2))
  + locScore (locationValues l1) (locationValues l2)
  + typeScore (typeString l1) (typeString l2)
  + sizeScore (sizeValue l1) (sizeValue l2)
  + priceScore (priceValue l1) (priceValue l2)

/-- The default match threshold of PropertyMatcher.is_match. -/
def defaultMatchThreshold : ℚ := 7/10

/-- PropertyMatcher.is_match. -/
def is_match (l1 l2 : Dict) (threshold : ℚ) : Bool × ℚ :=
  let score := calculate_match_score l1 l2
  (decide (threshold ≤ score), score)

/-! ### Listings and the record types -/

/-- The per-listing dictionary process_listings builds from a raw
record (metadata is carried along but never read by the core). -/
structure Listing where
  source_platform : String
  extraction_timestamp : ℕ
  listing_id : String
  raw_fields : Dict
  metadata : List (String × String)
deriving DecidableEq, Repr

/-- models.RawListingRecord. -/
structure RawListingRecord where
  source_platform : String
  extraction_timestamp : ℕ
  listing_id_native : String
  raw_fields : Dict
  metadata : List (String × String)
deriving DecidableEq, Repr

/-- The dict conversion at the top of process_listings. -/
def toListing (r : RawListingRecord) : Listing :=
  ⟨r.source_platform, r.extraction_timestamp, r.listing_id_native, r.raw_fields, r.metadata⟩

/-! ### DataConsolidator -/

/-- Python sorted with reverse equal true under a key: the unique
stable descending order.  Implemented as a stable insertion sort: an
element is inserted before the first earlier-seen element whose key is
not larger. -/
def insertDesc (k : Listing → ℕ) (x : Listing) : List Listing → List Listing
  | [] => [x]
  | y :: ys => if k x < k y then y :: insertDesc k x ys else x :: y :: ys

/-- Stable descending sort by key. -/
def sortDesc (k : Listing → ℕ) : List Listing → List Listing
  | [] => []
  | x :: xs => insertDesc k x (sortDesc k xs)

/-- DataConsolidator.get_field_precedence: among the listings whose
raw_fields contain the field, sort by extraction timestamp (most
recent first, stable) and take the value from the first. -/
def get_field_precedence (field : String) (listings : List Listing) : Option Value :=
  let candidates := listings.filter (fun l => (dget l.raw_fields field).isSome)
  match sortDesc (fun l => l.extraction_timestamp) candidates with
  | [] => none
  | best :: _ => dget best.raw_fields field

/-- One observation per listing that has the field: source platform
paired with the stored value. -/
def fieldObservations (field : String) (listings : List Listing) : List (String × Value) :=
  listings.filterMap (fun l => (dget l.raw_fields field).map (fun v => (l.source_platform, v)))

/-- Numeric projection of a value. -/
def toNum : Value → Option ℚ
  | .num q => some q
  | .str _ => none

/-- Python max over a nonempty value list whose first element is a
number: defined only when every element is a number (comparing a number
with a string raises TypeError). -/
def numMax : List Value → Option ℚ
  | [] => none
  | [v] => toNum v
  | v :: rest =>
    match toNum v, numMax rest with
    | some a, some b => some (max a b)
    | _, _ => none

/-- Python min, same raising behaviour as numMax. -/
def numMin : List Value → Option ℚ
  | [] => none
  | [v] => toNum v
  | v :: rest =>
    match toNum v, numMin rest with
    | some a, some b => some (min a b)
    | _, _ => none

/-- Python str() of a value for the string-conflict set. -/
def pyStr : Value → String
  | .str s => s
  | .num q => toString q

/-- A per-field conflict report. -/
structure Conflict where
  field : String
  values : List (String × Value)
  variance_percent : Option ℚ
deriving DecidableEq, Repr

/-- DataConsolidator.detect_conflicts.  The error case is the
TypeError Python raises when max or min compares a number with a
string (the first observation being numeric). -/
def detect_conflicts (field : String) (listings : List Listing)
    (variance_threshold : ℚ) : Except Unit (Option Conflict) :=
  let values := fieldObservations field listings
  if values.length ≤ 1 then .ok none
  else
    match values with
    | [] => .ok none
    | (_, .num _) :: _ =>
      match numMax (values.map (fun v => v.2)), numMin (values.map (fun v => v.2)) with
      | some mx, some mn =>
        .ok (if mx > 0 then
              (if (mx - mn) / mx > variance_threshold then
                some ⟨field, values, some ((mx - mn) / mx * 100)⟩
              else none)
            else none)
      | _, _ => .error ()
    | (_, .str _) :: _ =>
      .ok (if 1 < ((values.map (fun v => pyStr v.2)).dedup).length then
            some ⟨field, values, none⟩
          else none)

/-! ### PropertyClassifier -/

/-- Investment mandate bounds. -/
def MIN_PRICE : ℚ := 100000

/-- Upper price bound. -/
def MAX_PRICE : ℚ := 50000000

/-- Staleness ceiling. -/
def MAX_DAYS_ON_MARKET : ℤ := 365

/-- The structured discard-details payload. -/
structure DiscardDetails where
  reason_category : String
  explanation : String
  discarded_date : String
deriving DecidableEq, Repr

/-- The Zillow homeType vocabulary mapping (identity outside the
mapped keys). -/
def zillowTypeMap (t : String) : String :=
  if t = "SINGLE_FAMILY" then "SINGLE_FAMILY"
  else if t = "MULTI_FAMILY" then "MULTIFAMILY"
  else if t = "APARTMENT" then "MULTIFAMILY"
  else if t = "CONDO" then "CONDO"
  else if t = "TOWNHOUSE" then "TOWNHOUSE"
  else if t = "LOT" then "LAND"
  else if t = "FARM" then "LAND"
  else t

/-- Round half to even, the rounding of the money format used in the
price explanation string. -/
def roundHalfEven (q : ℚ) : ℤ :=
  let f := ⌊q⌋
  let r := q - f
  if r < 1/2 then f
  else if 1/2 < r then f + 1
  else if f % 2 = 0 then f else f + 1

/-- Insert thousands separators into a reversed digit list. -/
def group3 : List Char → List Char
  | a :: b :: c :: d :: rest => a :: b :: c :: ',' :: group3 (d :: rest)
  | l => l

/-- Signed decimal with thousands separators. -/
def fmtInt (n : ℤ) : String :=
  (if n < 0 then "-" else "") ++ (⟨(group3 (toString n.natAbs).data.reverse).reverse⟩ : String)

/-- The comma-grouped zero-decimal money format. -/
def fmtMoney (q : ℚ) : String :=
  fmtInt (roundHalfEven q)

/-- The currency stripping before parsing a string price: keep only
digits and dots. -/
def stripCurrency (s : String) : String :=
  ⟨s.data.filter (fun c => c.isDigit || c = '.')⟩

/-- float() applied to a price value, strings first stripped of
currency formatting; None is the caught ValueError. -/
def floatOfPriceValue : Value → Option ℚ
  | .num q => some q
  | .str s => pyFloatOfString (stripCurrency s)

/-- The classification result triple. -/
abbrev ClassifyResult := String × Option String × Option DiscardDetails

/-- The tail of classify_property from the days-on-market rule on:
truthy and parseable days above the ceiling flag the record, anything
else falls through to usable. -/
def classifyDays (data : Dict) : ClassifyResult :=
  match pyOrO (dget data "daysOnZillow") (dget data "days_on_market") with
  | some v =>
    if pyTruthy v then
      match pyIntV v with
      | some n => if n > MAX_DAYS_ON_MARKET then ("flagged", none, none) else ("usable", none, none)
      | none => ("usable", none, none)
    else ("usable", none, none)
  | none => ("usable", none, none)

/-- The price-band explanation string. -/
def priceExplanation (p : ℚ) : String :=
  "Price $" ++ fmtMoney p ++ " outside range ($" ++ fmtMoney MIN_PRICE ++ " - $" ++ fmtMoney MAX_PRICE ++ ")"

/-- PropertyClassifier.classify_property.  The now argument is the
utcnow isoformat string the source stamps into discard details. -/
def classify_property (data : Dict) (now : String) : ClassifyResult :=
  let missing := (["address"]).filter (fun f => ! pyTruthyO (dget data f))
  if missing.isEmpty then
    let propTypeRaw := pyOrV (dget data "homeType") (dgetD data "property_type" (.str ""))
    let propType := if pyTruthy propTypeRaw then pyUpperStr (asStr propTypeRaw) else ""
    let _ := zillowTypeMap propType
    match pyOrO (dget data "unformattedPrice") (dget data "price") with
    | some pv =>
      if pyTruthy pv then
        match floatOfPriceValue pv with
        | some p =>
          if p < MIN_PRICE ∨ p > MAX_PRICE then
            ("discarded", some "outside_investment_mandate",
              some ⟨"price_out_of_range", priceExplanation p, now⟩)
          else classifyDays data
        | none => classifyDays data
      else classifyDays data
    | none => classifyDays data
  else
    ("discarded", some "missing_critical_fields",
      some ⟨"incomplete_data",
        "Missing required fields: " ++ String.intercalate ", " missing, now⟩)

/-! ### CentralProcessingNode -/

/-- The single-pass leader-based grouping loop, parameterized by the
match predicate: the first unassigned listing leads a new group, every
later unassigned listing is compared against the leader only, matches
join and are marked assigned. -/
def groupListings {α : Type} (m : α → α → Bool) : List α → List (List α)
  | [] => []
  | x :: xs =>
    (x :: xs.filter (fun y => m x y)) :: groupListings m (xs.filter (fun y => ! m x y))
termination_by l => l.length
decreasing_by
  exact Nat.lt_succ_of_le (List.filter_sublist xs).length_le

/-- The match predicate _group_listings uses: is_match on raw_fields at
the default threshold. -/
def listingMatch (a b : Listing) : Bool :=
  (is_match a.raw_fields b.raw_fields defaultMatchThreshold).1

/-- CentralProcessingNode._group_listings. -/
def group_listings (listings : List Listing) : List (List Listing) :=
  groupListings listingMatch listings

/-- The fixed field list consolidation tracks. -/
def commonFields : List String :=
  [ "address", "address_full", "address_street", "address_city", "address_state", "address_zip",
    "price", "unformattedPrice", "beds", "baths", "area",
    "latitude", "longitude", "homeType", "homeStatus", "daysOnZillow" ]

/-- The per-field consolidation loop: best value per field (kept when
not None) and conflict collection, in field order.  An error from
detect_conflicts propagates. -/
def consolidateFields (group : List Listing) : List String → Except Unit (Dict × List Conflict)
  | [] => .ok ([], [])
  | f :: fs =>
    let entry := match get_field_precedence f group with
      | some v => [(f, v)]
      | none => []
    match detect_conflicts f group (1/20) with
    | .error e => .error e
    | .ok conf =>
      match consolidateFields group fs with
      | .error e => .error e
      | .ok (d, cs) => .ok (entry ++ d, conf.toList ++ cs)

/-- The address synthesis after field consolidation: copy address_full
into address, or build address from the truthy structured components,
when address itself is absent. -/
def synthesizeAddress (d : Dict) : Dict :=
  if (dget d "address_full").isSome && !(dget d "address").isSome then
    match dget d "address_full" with
    | some v => d ++ [("address", v)]
    | none => d
  else if !(dget d "address").isSome && (dget d "address_street").isSome then
    let parts := ["address_street", "address_city", "address_state", "address_zip"].filterMap
      (fun f => match dget d f with
        | some v => if pyTruthy v then some (asStr v) else none
        | none => none)
    if parts.isEmpty then d
    else d ++ [("address", .str (String.intercalate ", " parts))]
  else d

/-- The source-listing summary entries. -/
structure SourceSummary where
  platform : String
  listing_id : String
  extracted : ℕ
deriving DecidableEq, Repr

/-- models.ConsolidatedProperty (timestamps as instants, last_updated
as the now string). -/
structure ConsolidatedProperty where
  property_id : String
  consolidated_data : Dict
  source_listings : List SourceSummary
  conflicts : List Conflict
  classification : String
  discard_reason : Option String
  discard_details : Option DiscardDetails
  last_updated : String
deriving DecidableEq, Repr

/-- Zero padding for the sequential property identifier. -/
def zeroPad (w : ℕ) (n : ℕ) : String :=
  let s := toString n
  (⟨List.replicate (w - s.length) '0'⟩ : String) ++ s

/-- CentralProcessingNode._consolidate_group. -/
def consolidate_group (group_id : ℕ) (group : List Listing) (now : String) :
    Except Unit ConsolidatedProperty :=
  match consolidateFields group commonFields with
  | .error e => .error e
  | .ok (d0, conflicts) =>
    let data := synthesizeAddress d0
    let r := classify_property data now
    .ok { property_id := "PROP-" ++ zeroPad 6 group_id,
          consolidated_data := data,
          source_listings := group.map (fun l => ⟨l.source_platform, l.listing_id, l.extraction_timestamp⟩),
          conflicts := conflicts,
          classification := r.1,
          discard_reason := r.2.1,
          discard_details := r.2.2,
          last_updated := now }

/-- Consolidate the groups in scan order with sequential identifiers. -/
def consolidateAll (now : String) : ℕ → List (List Listing) → Except Unit (List ConsolidatedProperty)
  | _, [] => .ok []
  | i, g :: gs =>
    match consolidate_group i g now with
    | .error e => .error e
    | .ok p =>
      match consolidateAll now (i + 1) gs with
      | .error e => .error e
      | .ok ps => .ok (p :: ps)

/-- CentralProcessingNode.process_listings. -/
def process_listings (raws : List RawListingRecord) (now : String) :
    Except Unit (List ConsolidatedProperty) :=
  consolidateAll now 0 (group_listings (raws.map toListing))

/-! ### Derived views used to state the claims -/

/-- The price the classifier price rule acts on: the resolved price
value when it is truthy and parses, and nothing when the rule is
skipped (absent, falsy or unparseable price). -/
def resolvedPrice (data : Dict) : Option ℚ :=
  match pyOrO (dget data "unformattedPrice") (dget data "price") with
  | some v => if pyTruthy v then floatOfPriceValue v else none
  | none => none

/-- The days-on-market the staleness rule acts on, with the same
skip-as-none convention. -/
def resolvedDays (data : Dict) : Option ℤ :=
  match pyOrO (dget data "daysOnZillow") (dget data "days_on_market") with
  | some v => if pyTruthy v then pyIntV v else none
  | none => none

/-- Largest key in a listing list (zero on the empty list). -/
def maxKey (k : Listing → ℕ) (l : List Listing) : ℕ :=
  l.foldr (fun x m => max (k x) m) 0

/-- The character alphabet of the restricted idempotence statement:
uppercase ASCII letters, digits, space and hyphen. -/
def goodChar (c : Char) : Bool :=
  c.isUpper || c.isDigit || c = ' ' || c = '-'

/-- Absence of every alphabetic unit marker as a substring. -/
def noUnitMarkers (l : List Char) : Bool :=
  !(containsSub l ['U','N','I','T'] || containsSub l ['A','P','T'] ||
    containsSub l ['S','U','I','T','E'] || containsSub l ['S','T','E'])

/-! ### Concrete data used by the witnesses -/

/-- Witness listing A: matches B through an address containment. -/
def wListA : Listing :=
  ⟨"P1", 10, "a",
    [("address", .str "100 MAIN STREET"), ("address_city", .str "SEATTLE"),
     ("address_state", .str "WA"), ("address_zip", .str "98101"),
     ("homeType", .str "OFFICE"), ("area", .num 1000), ("price", .num 1000000)], []⟩

/-- Witness listing B: its address contains both other addresses. -/
def wListB : Listing :=
  ⟨"P2", 20, "b",
    [("address", .str "100 MAIN STREET 200 OAK AVENUE"), ("address_city", .str "SEATTLE"),
     ("address_state", .str "WA"), ("address_zip", .str "98101"),
     ("homeType", .str "OFFICE"), ("area", .num 1000), ("price", .num 1000000)], []⟩

/-- Witness listing C: matches B but not A (different address and
size). -/
def wListC : Listing :=
  ⟨"P3", 30, "c",
    [("address", .str "200 OAK AVENUE"), ("address_city", .str "SEATTLE"),
     ("address_state", .str "WA"), ("address_zip", .str "98101"),
     ("homeType", .str "OFFICE"), ("area", .num 2000), ("price", .num 1000000)], []⟩

/-- Three-listing group with prices 100, 101, 200. -/
def wConf1 : List Listing :=
  [⟨"A", 1, "a", [("p", .num 100)], []⟩,
   ⟨"B", 2, "b", [("p", .num 101)], []⟩,
   ⟨"C", 3, "c", [("p", .num 200)], []⟩]

/-- Three-listing group with prices 100, 101, 104. -/
def wConf2 : List Listing :=
  [⟨"A", 1, "a", [("p", .num 100)], []⟩,
   ⟨"B", 2, "b", [("p", .num 101)], []⟩,
   ⟨"C", 3, "c", [("p", .num 104)], []⟩]

/-- Single-observation group. -/
def wConf3 : List Listing :=
  [⟨"A", 1, "a", [("p", .num 100)], []⟩, ⟨"B", 2, "b", [], []⟩]

/-- A raw record with only an address field. -/
def wRaw : RawListingRecord :=
  ⟨"P1", 10, "a", [("address", .str "100 MAIN STREET")], []⟩

/-- The consolidated property process_listings produces from wRaw. -/
def wProp : ConsolidatedProperty :=
  { property_id := "PROP-000000",
    consolidated_data := [("address", .str "100 MAIN STREET")],
    source_listings := [⟨"P1", "a", 10⟩],
    conflicts := [],
    classification := "usable",
    discard_reason := none,
    discard_details := none,
    last_updated := "T" }

/-! ### Predicates used by the restricted idempotence development -/

/-- No two adjacent whitespace characters. -/
def noDblSpace (l : List Char) : Prop :=
  List.Chain' (fun a b => ¬(pyIsSpace a = true ∧ pyIsSpace b = true)) l

/-- Whether a chunk is a whitespace separator. -/
def chunkSpace : Chunk → Bool
  | Chunk.sep c => pyIsSpace c
  | Chunk.word _ => false

/-- A character predicate lifted to one chunk. -/
def chunkAll (P : Char → Bool) : Chunk → Bool
  | Chunk.word t => t.all P
  | Chunk.sep c => P c

/-- No two adjacent whitespace separator chunks. -/
def noDblSpaceChunks : List Chunk → Bool
  | Chunk.sep c :: Chunk.sep d :: rest =>
      !(pyIsSpace c && pyIsSpace d) && noDblSpaceChunks (Chunk.sep d :: rest)
  | _ :: rest => noDblSpaceChunks rest
  | [] => true

/-- The alphabetic unit markers. -/
def markers4 : List (List Char) :=
  [ ['U','N','I','T'], ['A','P','T'], ['S','U','I','T','E'], ['S','T','E'] ]

/-- Absence of every alphabetic unit marker from one token. -/
def noMarkerTok (t : List Char) : Bool :=
  markers4.all (fun m => !containsSub t m)

/-! ## Classifier lemmas -/

/-- When the address entry is falsy or absent, the first classifier
rule fires with the singleton missing-field list. -/
theorem classify_missing_eq (data : Dict) (now : String)
    (h : pyTruthyO (dget data "address") = false) :
    classify_property data now =
      ("discarded", some "missing_critical_fields",
        some ⟨"incomplete_data", "Missing required fields: address", now⟩) := by
  have hm : (["address"].filter (fun f => ! pyTruthyO (dget data f))) = ["address"] := by
    simp [List.filter, h]
  simp only [classify_property, hm]
  rfl

/-- When the address entry is truthy, the classifier result is
determined by the price and staleness rules. -/
theorem classify_present_eq (data : Dict) (now : String)
    (h : pyTruthyO (dget data "address") = true) :
    classify_property data now =
      (match pyOrO (dget data "unformattedPrice") (dget data "price") with
       | some pv =>
         if pyTruthy pv then
           match floatOfPriceValue pv with
           | some p =>
             if p < MIN_PRICE ∨ p > MAX_PRICE then
               ("discarded", some "outside_investment_mandate",
                 some ⟨"price_out_of_range", priceExplanation p, now⟩)
             else classifyDays data
           | none => classifyDays data
         else classifyDays data
       | none => classifyDays data) := by
  have hm : (["address"].filter (fun f => ! pyTruthyO (dget data f))) = [] := by
    simp [List.filter, h]
  simp only [classify_property, hm]
  rfl

/-! ## C4 -/

/-- C4: with the address field absent from the consolidated data,
classify_property discards with reason missing_critical_fields and
details naming the missing field, regardless of every other field. -/
theorem C4_missing_address_discards (data : Dict) (now : String)
    (h : dget data "address" = none) :
    classify_property data now =
      ("discarded", some "missing_critical_fields",
        some ⟨"incomplete_data", "Missing required fields: address", now⟩) :=
  classify_missing_eq data now (by rw [h]; rfl)

/-- Witness: an addressless record is discarded for missing critical
fields. -/
theorem C4_missing_address_discards_witness :
    classify_property [("price", .num 200000)] "T" =
      ("discarded", some "missing_critical_fields",
        some ⟨"incomplete_data", "Missing required fields: address", "T"⟩) :=
  C4_missing_address_discards [("price", .num 200000)] "T" rfl

/-! ## C10 -/

/-- C10: an empty-string address value is treated exactly like an
absent one: the record is discarded with reason
missing_critical_fields. -/
theorem C10_empty_address_discards (data : Dict) (now : String)
    (h : dget data "address" = some (.str "")) :
    classify_property data now =
      ("discarded", some "missing_critical_fields",
        some ⟨"incomplete_data", "Missing required fields: address", now⟩) :=
  classify_missing_eq data now (by rw [h]; rfl)

/-- Witness: a present-but-empty address is discarded like an absent
one. -/
theorem C10_empty_address_discards_witness :
    classify_property [("address", .str ""), ("price", .num 200000)] "T" =
      ("discarded", some "missing_critical_fields",
        some ⟨"incomplete_data", "Missing required fields: address", "T"⟩) :=
  C10_empty_address_discards [("address", .str ""), ("price", .num 200000)] "T" rfl

/-! ## C5 -/

/-- C5 counterexample: a record whose price is the number 0 — which
parses to a value outside the band [100000, 50000000] — is classified
usable, not discarded: the price rule fires only on truthy price
values, and 0 is falsy. -/
theorem C5_price_zero_counterexample :
    floatOfPriceValue (.num 0) = some 0
    ∧ (0 : ℚ) < MIN_PRICE
    ∧ classify_property [("address", .str "123 Main St"), ("price", .num 0)] "T"
        = ("usable", none, none) := by
  refine ⟨rfl, by norm_num [MIN_PRICE], ?_⟩
  rfl

/-- C5 amended: for records with an address present, the price-band
rule applies only to truthy price values (so the falsy values 0 and the
empty string are skipped like an absent price): a truthy price parsing
outside [100000, 50000000] is discarded as outside_investment_mandate,
an unparseable truthy price skips the rule (no error), and the
formatted string for 1,250,000 dollars parses to 1250000, inside the
band. -/
theorem C5_price_band (data : Dict) (now : String)
    (haddr : pyTruthyO (dget data "address") = true) :
    (∀ v p, pyOrO (dget data "unformattedPrice") (dget data "price") = some v →
        pyTruthy v = true → floatOfPriceValue v = some p →
        (p < MIN_PRICE ∨ p > MAX_PRICE) →
        classify_property data now =
          ("discarded", some "outside_investment_mandate",
            some ⟨"price_out_of_range", priceExplanation p, now⟩))
    ∧ (∀ v, pyOrO (dget data "unformattedPrice") (dget data "price") = some v →
        pyTruthy v = true → floatOfPriceValue v = none →
        classify_property data now = classifyDays data)
    ∧ floatOfPriceValue (.str "$1,250,000") = some 1250000
    ∧ ¬ ((1250000 : ℚ) < MIN_PRICE ∨ (1250000 : ℚ) > MAX_PRICE) := by
  refine ⟨?_, ?_, by decide, by norm_num [MIN_PRICE, MAX_PRICE]⟩
  · intro v p hv htr hf hband
    rw [classify_present_eq data now haddr, hv]
    simp only [htr, if_true, hf, if_pos hband]
  · intro v hv htr hf
    rw [classify_present_eq data now haddr, hv]
    simp only [htr, if_true, hf]

/-- Witness: a record priced at 60,000,000 with an address present is
discarded as outside the investment mandate. -/
theorem C5_price_band_witness :
    classify_property [("address", .str "X"), ("price", .num 60000000)] "T" =
      ("discarded", some "outside_investment_mandate",
        some ⟨"price_out_of_range", priceExplanation 60000000, "T"⟩) :=
  (C5_price_band [("address", .str "X"), ("price", .num 60000000)] "T" rfl).1
    (.num 60000000) 60000000 rfl rfl rfl (by norm_num [MIN_PRICE, MAX_PRICE])

/-- classifyDays in terms of the resolved days view. -/
theorem classifyDays_eq (data : Dict) :
    classifyDays data =
      (match resolvedDays data with
       | some n =>
         if n > MAX_DAYS_ON_MARKET then (("flagged" : String), (none : Option String), (none : Option DiscardDetails))
         else ("usable", none, none)
       | none => ("usable", none, none)) := by
  unfold classifyDays resolvedDays
  cases pyOrO (dget data "daysOnZillow") (dget data "days_on_market") with
  | none => rfl
  | some v =>
    cases htr : pyTruthy v with
    | false => simp [htr]
    | true => simp [htr]

/-! ## C6 -/

/-- C6: with an address present and a price absent or inside the band,
a days-on-market value parsing to an integer above the 365 ceiling
yields the classification flagged with no reason and no details, and an
unparseable days-on-market value skips the rule (the record stays
usable, no error). -/
theorem C6_staleness_flags (data : Dict) (now : String)
    (haddr : pyTruthyO (dget data "address") = true)
    (hprice : resolvedPrice data = none
      ∨ ∃ p, resolvedPrice data = some p ∧ MIN_PRICE ≤ p ∧ p ≤ MAX_PRICE) :
    (∀ n, resolvedDays data = some n → MAX_DAYS_ON_MARKET < n →
        classify_property data now = ("flagged", none, none))
    ∧ (resolvedDays data = none →
        classify_property data now = ("usable", none, none)) := by
  have hcp : classify_property data now = classifyDays data := by
    rw [classify_present_eq data now haddr]
    rcases hpo : pyOrO (dget data "unformattedPrice") (dget data "price") with _ | v
    · rfl
    · rcases htr : pyTruthy v with _ | _
      · simp [htr]
      · simp only [htr, if_true]
        rcases hf : floatOfPriceValue v with _ | p
        · rfl
        · have hres : resolvedPrice data = some p := by
            simp only [resolvedPrice, hpo, htr, if_true, hf]
          rcases hprice with hnone | ⟨p0, hp0, hlo, hhi⟩
          · rw [hres] at hnone; exact absurd hnone (by simp)
          · rw [hres] at hp0
            have hpp : p = p0 := by injection hp0
            subst hpp
            have hnb : ¬ (p < MIN_PRICE ∨ p > MAX_PRICE) := by
              push_neg
              exact ⟨hlo, hhi⟩
            simp only [if_neg hnb]
  have hceq := classifyDays_eq data
  constructor
  · intro n hn hgt
    rw [hcp, hceq, hn]
    simp [hgt]
  · intro hn
    rw [hcp, hceq, hn]


/-- Witness: address present, no price, days on market 400: the record
is flagged. -/
theorem C6_staleness_flags_witness :
    classify_property [("address", .str "X"), ("days_on_market", .num 400)] "T"
      = ("flagged", none, none) :=
  (C6_staleness_flags [("address", .str "X"), ("days_on_market", .num 400)] "T" rfl
      (Or.inl rfl)).1 400 rfl (by decide)

/-- The empty-list equation of the grouping loop. -/
theorem groupListings_nil {α : Type} (m : α → α → Bool) : groupListings m [] = [] := by
  rw [groupListings]

/-- The cons equation of the grouping loop: the head leads, the
listings matching the leader join, the rest is regrouped. -/
theorem groupListings_cons {α : Type} (m : α → α → Bool) (x : α) (xs : List α) :
    groupListings m (x :: xs) =
      (x :: xs.filter (fun y => m x y)) :: groupListings m (xs.filter (fun y => ! m x y)) := by
  rw [groupListings]

/-! ## C9 -/

/-- The classifier result is one of four shapes: the two discard
branches with details, or the flagged and usable triples with null
payloads. -/
theorem classify_cases (data : Dict) (now : String) :
    (∃ dd, classify_property data now = ("discarded", some "missing_critical_fields", some dd))
    ∨ (∃ dd, classify_property data now = ("discarded", some "outside_investment_mandate", some dd))
    ∨ classify_property data now = ("flagged", none, none)
    ∨ classify_property data now = ("usable", none, none) := by
  by_cases h : pyTruthyO (dget data "address") = true
  · rw [classify_present_eq data now h]
    have hd : classifyDays data = ("flagged", none, none)
        ∨ classifyDays data = ("usable", none, none) := by
      rw [classifyDays_eq]
      rcases resolvedDays data with _ | n
      · exact Or.inr rfl
      · by_cases hn : n > MAX_DAYS_ON_MARKET
        · exact Or.inl (by simp [hn])
        · exact Or.inr (by simp [hn])
    rcases hpo : pyOrO (dget data "unformattedPrice") (dget data "price") with _ | v
    · rcases hd with h1 | h1
      · exact Or.inr (Or.inr (Or.inl h1))
      · exact Or.inr (Or.inr (Or.inr h1))
    · by_cases htr : pyTruthy v = true
      · rcases hf : floatOfPriceValue v with _ | p
        · simp only [htr, if_true, hf]
          rcases hd with h1 | h1
          · exact Or.inr (Or.inr (Or.inl h1))
          · exact Or.inr (Or.inr (Or.inr h1))
        · by_cases hband : p < MIN_PRICE ∨ p > MAX_PRICE
          · simp only [htr, if_true, hf, hband]
            exact Or.inr (Or.inl ⟨⟨"price_out_of_range", priceExplanation p, now⟩, by simp⟩)
          · simp only [htr, if_true, hf]
            rw [if_neg hband]
            rcases hd with h1 | h1
            · exact Or.inr (Or.inr (Or.inl h1))
            · exact Or.inr (Or.inr (Or.inr h1))
      · have htr2 : pyTruthy v = false := by simpa using htr
        simp only [htr2]
        simp only [Bool.false_eq_true, if_false]
        rcases hd with h1 | h1
        · exact Or.inr (Or.inr (Or.inl h1))
        · exact Or.inr (Or.inr (Or.inr h1))
  · have h2 : pyTruthyO (dget data "address") = false := by simpa using h
    rw [classify_missing_eq data now h2]
    exact Or.inl ⟨_, rfl⟩

/-- Every branch of the classifier returns a non-null reason and
non-null details exactly when it discards. -/
theorem classify_invariant (data : Dict) (now : String) :
    ((classify_property data now).2.1 ≠ none ↔ (classify_property data now).1 = "discarded")
    ∧ ((classify_property data now).2.2 ≠ none ↔ (classify_property data now).1 = "discarded") := by
  rcases classify_cases data now with ⟨dd, hc⟩ | ⟨dd, hc⟩ | hc | hc <;> rw [hc] <;> simp

/-- A successfully consolidated group carries exactly the classifier
triple of its synthesized data. -/
theorem consolidate_group_classify (i : ℕ) (g : List Listing) (now : String)
    (p : ConsolidatedProperty) (h : consolidate_group i g now = .ok p) :
    ∃ data, p.classification = (classify_property data now).1
      ∧ p.discard_reason = (classify_property data now).2.1
      ∧ p.discard_details = (classify_property data now).2.2 := by
  unfold consolidate_group at h
  rcases hcf : consolidateFields g commonFields with e | pr
  · rw [hcf] at h; cases h
  · rw [hcf] at h
    rcases pr with ⟨d0, cfs⟩
    injection h with h1
    subst h1
    exact ⟨synthesizeAddress d0, rfl, rfl, rfl⟩

/-- Every property in a successful consolidation run comes from a
successful consolidate_group call. -/
theorem consolidateAll_mem (now : String) :
    ∀ (gs : List (List Listing)) (i : ℕ) (out : List ConsolidatedProperty),
      consolidateAll now i gs = .ok out →
      ∀ p ∈ out, ∃ j g, consolidate_group j g now = .ok p := by
  intro gs
  induction gs with
  | nil =>
    intro i out h p hp
    simp only [consolidateAll] at h
    injection h with h1
    subst h1
    simp at hp
  | cons g gs ih =>
    intro i out h p hp
    simp only [consolidateAll] at h
    rcases hg : consolidate_group i g now with e | q
    · rw [hg] at h; cases h
    · rw [hg] at h
      rcases hres : consolidateAll now (i + 1) gs with e | ps
      · rw [hres] at h; cases h
      · rw [hres] at h
        injection h with h1
        subst h1
        rcases List.mem_cons.mp hp with rfl | hmem
        · exact ⟨i, g, hg⟩
        · exact ih (i + 1) ps hres p hmem

/-- C9: in every ConsolidatedProperty produced by process_listings,
discard_reason is non-null iff the classification is discarded, and
likewise for discard_details; usable and flagged records carry null in
both. -/
theorem C9_discard_iff_reason (raws : List RawListingRecord) (now : String)
    (out : List ConsolidatedProperty) (h : process_listings raws now = .ok out) :
    ∀ p ∈ out,
      (p.discard_reason ≠ none ↔ p.classification = "discarded")
      ∧ (p.discard_details ≠ none ↔ p.classification = "discarded") := by
  intro p hp
  unfold process_listings at h
  obtain ⟨j, g, hg⟩ := consolidateAll_mem now (group_listings (raws.map toListing)) 0 out h p hp
  obtain ⟨data, h1, h2, h3⟩ := consolidate_group_classify j g now p hg
  rw [h1, h2, h3]
  exact classify_invariant data now

/-- Witness: the single consolidated property of a one-listing run
satisfies both invariants. -/
theorem C9_discard_iff_reason_witness :
    (wProp.discard_reason ≠ none ↔ wProp.classification = "discarded")
    ∧ (wProp.discard_details ≠ none ↔ wProp.classification = "discarded") :=
  C9_discard_iff_reason [wRaw] "T" [wProp]
    (by
      show consolidateAll "T" 0 (group_listings ([wRaw].map toListing)) = .ok [wProp]
      have hg : group_listings ([wRaw].map toListing) = [[toListing wRaw]] := by
        show group_listings [toListing wRaw] = [[toListing wRaw]]
        unfold group_listings
        rw [groupListings_cons]
        simp only [List.filter_nil]
        rw [groupListings_nil]
      rw [hg]
      with_unfolding_all rfl)
    wProp (by simp)

/-! ## C1 -/

/-- C1: grouping is single-pass and leader-based: with three listings
where the first matches the second but not the third, the produced
groups are exactly the first two and the third alone — the third never
joins the first group despite matching the second listing. -/
theorem C1_leader_asymmetric_grouping (A B C : Listing)
    (hAB : listingMatch A B = true) (hAC : listingMatch A C = false)
    (_hBC : listingMatch B C = true) :
    group_listings [A, B, C] = [[A, B], [C]] := by
  unfold group_listings
  rw [groupListings_cons]
  simp [hAB, hAC, groupListings_cons, groupListings_nil]

/-- Witness: concrete listings with the required match pattern group
as the two leaders dictate. -/
theorem C1_leader_asymmetric_grouping_witness :
    group_listings [wListA, wListB, wListC] = [[wListA, wListB], [wListC]] :=
  C1_leader_asymmetric_grouping wListA wListB wListC
    (by with_unfolding_all decide) (by with_unfolding_all decide) (by with_unfolding_all decide)

/-! ## C2 -/

/-- maxKey over a cons. -/
theorem maxKey_cons (k : Listing → ℕ) (x : Listing) (xs : List Listing) :
    maxKey k (x :: xs) = max (k x) (maxKey k xs) := rfl

/-- Bounding maxKey is bounding every key. -/
theorem maxKey_le_iff (k : Listing → ℕ) (l : List Listing) (n : ℕ) :
    maxKey k l ≤ n ↔ ∀ x ∈ l, k x ≤ n := by
  induction l with
  | nil => simp [maxKey]
  | cons x xs ih => simp [maxKey_cons, Nat.max_le, ih]

/-- Every member key is at most maxKey. -/
theorem le_maxKey_of_mem (k : Listing → ℕ) {x : Listing} {l : List Listing}
    (h : x ∈ l) : k x ≤ maxKey k l := by
  induction l with
  | nil => cases h
  | cons y ys ih =>
    rw [maxKey_cons]
    rcases List.mem_cons.mp h with rfl | hmem
    · exact le_max_left _ _
    · exact le_trans (ih hmem) (le_max_right _ _)

/-- insertDesc never empties a list. -/
theorem insertDesc_ne_nil (k : Listing → ℕ) (x : Listing) (s : List Listing) :
    insertDesc k x s ≠ [] := by
  cases s with
  | nil => simp [insertDesc]
  | cons y ys =>
    rw [insertDesc]
    split <;> simp

/-- Membership is preserved by insertion. -/
theorem insertDesc_mem (k : Listing → ℕ) (x a : Listing) (s : List Listing) :
    a ∈ insertDesc k x s ↔ a = x ∨ a ∈ s := by
  induction s with
  | nil => simp [insertDesc]
  | cons y ys ih =>
    rw [insertDesc]
    split
    · simp only [List.mem_cons, ih]
      try tauto
    · simp only [List.mem_cons]
      try tauto

/-- Membership is preserved by the sort. -/
theorem sortDesc_mem (k : Listing → ℕ) (a : Listing) (l : List Listing) :
    a ∈ sortDesc k l ↔ a ∈ l := by
  induction l with
  | nil => simp [sortDesc]
  | cons x xs ih =>
    rw [sortDesc, insertDesc_mem]
    simp [ih]
    try tauto

/-- The head of the stable descending sort is the first element of the
original list attaining the maximal key. -/
theorem sortDesc_head_eq_find (k : Listing → ℕ) (l : List Listing) :
    (sortDesc k l).head? = l.find? (fun x => decide (maxKey k l ≤ k x)) := by
  induction l with
  | nil => rfl
  | cons x xs ih =>
    show (insertDesc k x (sortDesc k xs)).head? = _
    cases hs : sortDesc k xs with
    | nil =>
      have hxs : xs = [] := by
        cases xs with
        | nil => rfl
        | cons y ys => exact absurd hs (by rw [sortDesc]; exact insertDesc_ne_nil k y _)
      subst hxs
      simp [insertDesc, maxKey_cons, maxKey, List.find?]
    | cons h t =>
      have hmem : h ∈ xs := by
        have hm : h ∈ sortDesc k xs := by rw [hs]; exact List.mem_cons_self h t
        exact (sortDesc_mem k h xs).mp hm
      have hfind : xs.find? (fun y => decide (maxKey k xs ≤ k y)) = some h := by
        rw [← ih, hs]; rfl
      have hub : maxKey k xs ≤ k h := by simpa using List.find?_some hfind
      have hle : k h ≤ maxKey k xs := le_maxKey_of_mem k hmem
      have hkh : k h = maxKey k xs := le_antisymm hle hub
      rw [insertDesc]
      by_cases hlt : k x < k h
      · rw [if_pos hlt]
        have hxlt : k x < maxKey k xs := hkh ▸ hlt
        have hmk : maxKey k (x :: xs) = maxKey k xs := by
          rw [maxKey_cons]
          exact max_eq_right (le_of_lt hxlt)
        rw [List.find?_cons_of_neg]
        · rw [hmk, hfind]
          rfl
        · simp only [decide_eq_true_eq, hmk]
          omega
      · rw [if_neg hlt]
        have hge : maxKey k xs ≤ k x := hkh ▸ (not_lt.mp hlt)
        rw [List.find?_cons_of_pos]
        · rfl
        · simp only [decide_eq_true_eq, maxKey_cons]
          exact max_le le_rfl hge

/-- C2: get_field_precedence returns the field value of the first
candidate (in group order) whose extraction timestamp bounds every
candidate timestamp — the stable latest-first rule — and null when no
listing carries the field. -/
theorem C2_field_precedence_spec (field : String) (listings : List Listing) :
    get_field_precedence field listings =
      ((listings.filter (fun l => (dget l.raw_fields field).isSome)).find?
        (fun l => decide (∀ m ∈ listings.filter (fun l2 => (dget l2.raw_fields field).isSome),
            m.extraction_timestamp ≤ l.extraction_timestamp))).bind
        (fun l => dget l.raw_fields field) := by
  have hmain : get_field_precedence field listings =
      ((sortDesc (fun l => l.extraction_timestamp)
        (listings.filter (fun (l : Listing) => (dget l.raw_fields field).isSome))).head?).bind
        (fun (l : Listing) => dget l.raw_fields field) := by
    simp only [get_field_precedence]
    cases sortDesc (fun l => l.extraction_timestamp)
        (listings.filter (fun (l : Listing) => (dget l.raw_fields field).isSome)) <;> rfl
  have h2 : (fun (l : Listing) => decide (∀ m ∈ listings.filter (fun (l2 : Listing) => (dget l2.raw_fields field).isSome),
        m.extraction_timestamp ≤ l.extraction_timestamp))
      = (fun (l : Listing) => decide (maxKey (fun (l2 : Listing) => l2.extraction_timestamp)
        (listings.filter (fun (l2 : Listing) => (dget l2.raw_fields field).isSome)) ≤ l.extraction_timestamp)) := by
    funext l
    rw [decide_eq_decide]
    constructor
    · intro hall
      exact (maxKey_le_iff _ _ _).mpr hall
    · intro hmax m hm
      exact le_trans (le_maxKey_of_mem _ hm) hmax
  rw [hmain, sortDesc_head_eq_find, ← h2]

/-! ## C7 -/

/-- Value equality is symmetric. -/
theorem pyEq_comm (a b : Value) : pyEq a b = pyEq b a := by
  cases a <;> cases b <;> simp [pyEq, eq_comm]

/-- The address signal is symmetric. -/
theorem addrScore_comm (a b : String) : addrScore a b = addrScore b a := by
  by_cases he : a = b
  · subst he; rfl
  · unfold addrScore
    by_cases hab : a ≠ "" ∧ b ≠ ""
    · rw [if_pos hab, if_pos (show b ≠ "" ∧ a ≠ "" from ⟨hab.2, hab.1⟩),
        if_neg he, if_neg (show ¬ b = a from fun hh => he hh.symm)]
      exact if_congr or_comm rfl rfl
    · rw [if_neg hab, if_neg (show ¬ (b ≠ "" ∧ a ≠ "") from fun hh => hab ⟨hh.2, hh.1⟩)]

/-- The location signal is symmetric. -/
theorem locScore_comm (p1 p2 : Value × Value × Value) : locScore p1 p2 = locScore p2 p1 := by
  unfold locScore
  have h1 : (pyTruthy p1.1 = true ∧ pyTruthy p2.1 = true ∧
        pyUpperStr (asStr p1.1) = pyUpperStr (asStr p2.1))
      ↔ (pyTruthy p2.1 = true ∧ pyTruthy p1.1 = true ∧
        pyUpperStr (asStr p2.1) = pyUpperStr (asStr p1.1)) := by
    constructor <;> rintro ⟨x, y, z⟩ <;> exact ⟨y, x, z.symm⟩
  have h2 : (pyTruthy p1.2.1 = true ∧ pyTruthy p2.2.1 = true ∧
        pyUpperStr (asStr p1.2.1) = pyUpperStr (asStr p2.2.1))
      ↔ (pyTruthy p2.2.1 = true ∧ pyTruthy p1.2.1 = true ∧
        pyUpperStr (asStr p2.2.1) = pyUpperStr (asStr p1.2.1)) := by
    constructor <;> rintro ⟨x, y, z⟩ <;> exact ⟨y, x, z.symm⟩
  have h3 : (pyTruthy p1.2.2 = true ∧ pyTruthy p2.2.2 = true ∧ pyEq p1.2.2 p2.2.2 = true)
      ↔ (pyTruthy p2.2.2 = true ∧ pyTruthy p1.2.2 = true ∧ pyEq p2.2.2 p1.2.2 = true) := by
    rw [pyEq_comm]
    constructor <;> rintro ⟨x, y, z⟩ <;> exact ⟨y, x, z⟩
  rw [if_congr h1 rfl rfl, if_congr h2 rfl rfl, if_congr h3 rfl rfl]

/-- The property-type signal is symmetric. -/
theorem typeScore_comm (t1 t2 : String) : typeScore t1 t2 = typeScore t2 t1 := by
  unfold typeScore
  have h : (t1 ≠ "" ∧ t2 ≠ "" ∧ t1 = t2) ↔ (t2 ≠ "" ∧ t1 ≠ "" ∧ t2 = t1) := by
    constructor <;> rintro ⟨x, y, z⟩ <;> exact ⟨y, x, z.symm⟩
  rw [if_congr h rfl rfl]

/-- The size banding is symmetric. -/
theorem sizeBand_comm (x y : ℚ) : sizeBand x y = sizeBand y x := by
  unfold sizeBand
  rw [max_comm y x, abs_sub_comm y x]

/-- The parsed size pair is symmetric. -/
theorem sizePair_comm (a b : Option ℚ) : sizePair a b = sizePair b a := by
  rcases a with _ | x <;> rcases b with _ | y <;> try rfl
  show sizeBand x y = sizeBand y x
  exact sizeBand_comm x y

/-- The size signal is symmetric. -/
theorem sizeScore_comm (a b : Option Value) : sizeScore a b = sizeScore b a := by
  rcases a with _ | v1 <;> rcases b with _ | v2 <;> try rfl
  show (if pyTruthy v1 = true ∧ pyTruthy v2 = true then sizePair (toQ v1) (toQ v2) else 0)
    = (if pyTruthy v2 = true ∧ pyTruthy v1 = true then sizePair (toQ v2) (toQ v1) else 0)
  exact if_congr and_comm (sizePair_comm _ _) rfl

/-- The price banding is symmetric. -/
theorem priceBand_comm (x y : ℚ) : priceBand x y = priceBand y x := by
  unfold priceBand
  rw [max_comm y x, abs_sub_comm y x]

/-- The parsed price pair is symmetric. -/
theorem pricePair_comm (a b : Option ℚ) : pricePair a b = pricePair b a := by
  rcases a with _ | x <;> rcases b with _ | y <;> try rfl
  show priceBand x y = priceBand y x
  exact priceBand_comm x y

/-- The price signal is symmetric. -/
theorem priceScore_comm (a b : Option Value) : priceScore a b = priceScore b a := by
  rcases a with _ | v1 <;> rcases b with _ | v2 <;> try rfl
  show (if pyTruthy v1 = true ∧ pyTruthy v2 = true then pricePair (toQ v1) (toQ v2) else 0)
    = (if pyTruthy v2 = true ∧ pyTruthy v1 = true then pricePair (toQ v2) (toQ v1) else 0)
  exact if_congr and_comm (pricePair_comm _ _) rfl

/-- C7: the match score is symmetric in its two listings, whichever
field aliases each side populates (every signal resolves its inputs
per listing and compares them symmetrically). -/
theorem C7_score_symmetric (l1 l2 : Dict) :
    calculate_match_score l1 l2 = calculate_match_score l2 l1 := by
  unfold calculate_match_score
  rw [addrScore_comm, locScore_comm, typeScore_comm, sizeScore_comm, priceScore_comm]

/-! ## C3 -/

/-- Python max over an all-numeric nonempty value list: it succeeds and
returns an attained upper bound. -/
theorem numMax_spec (l : List Value) (hall : ∀ v ∈ l, (toNum v).isSome = true)
    (hne : l ≠ []) :
    ∃ mx, numMax l = some mx ∧ mx ∈ l.filterMap toNum ∧ ∀ a ∈ l.filterMap toNum, a ≤ mx := by
  induction l with
  | nil => exact absurd rfl hne
  | cons v rest ih =>
    rcases hv : toNum v with _ | q
    · exact absurd (hall v (by simp)) (by simp [hv])
    · cases rest with
      | nil =>
        refine ⟨q, ?_, ?_, ?_⟩
        · simp [numMax, hv]
        · simp [List.filterMap_cons, hv]
        · intro a ha
          simp [List.filterMap_cons, hv] at ha
          subst ha
          exact le_rfl
      | cons w rest2 =>
        obtain ⟨mx2, h1, h2, h3⟩ := ih (fun x hx => hall x (by simp [hx])) (by simp)
        refine ⟨max q mx2, ?_, ?_, ?_⟩
        · simp only [numMax, hv, h1]
        · rcases max_cases q mx2 with ⟨he, _⟩ | ⟨he, _⟩ <;> rw [he]
          · simp [List.filterMap_cons, hv]
          · simp only [List.filterMap_cons, hv]
            exact List.mem_cons_of_mem _ h2
        · intro a ha
          simp only [List.filterMap_cons, hv, List.mem_cons] at ha
          rcases ha with rfl | ha
          · exact le_max_left _ _
          · exact le_trans (h3 a ha) (le_max_right _ _)

/-- Python min over an all-numeric nonempty value list: it succeeds and
returns an attained lower bound. -/
theorem numMin_spec (l : List Value) (hall : ∀ v ∈ l, (toNum v).isSome = true)
    (hne : l ≠ []) :
    ∃ mn, numMin l = some mn ∧ mn ∈ l.filterMap toNum ∧ ∀ a ∈ l.filterMap toNum, mn ≤ a := by
  induction l with
  | nil => exact absurd rfl hne
  | cons v rest ih =>
    rcases hv : toNum v with _ | q
    · exact absurd (hall v (by simp)) (by simp [hv])
    · cases rest with
      | nil =>
        refine ⟨q, ?_, ?_, ?_⟩
        · simp [numMin, hv]
        · simp [List.filterMap_cons, hv]
        · intro a ha
          simp [List.filterMap_cons, hv] at ha
          subst ha
          exact le_rfl
      | cons w rest2 =>
        obtain ⟨mn2, h1, h2, h3⟩ := ih (fun x hx => hall x (by simp [hx])) (by simp)
        refine ⟨min q mn2, ?_, ?_, ?_⟩
        · simp only [numMin, hv, h1]
        · rcases min_cases q mn2 with ⟨he, _⟩ | ⟨he, _⟩ <;> rw [he]
          · simp [List.filterMap_cons, hv]
          · simp only [List.filterMap_cons, hv]
            exact List.mem_cons_of_mem _ h2
        · intro a ha
          simp only [List.filterMap_cons, hv, List.mem_cons] at ha
          rcases ha with rfl | ha
          · exact min_le_left _ _
          · exact le_trans (min_le_right _ _) (h3 a ha)

/-- C3: detect_conflicts returns null on at most one observation; on
all-numeric observations it returns a conflict exactly when the maximum
is positive and the relative spread exceeds the threshold, reporting
variance times one hundred; on values 100, 101, 200 at the default
5 percent threshold it reports variance_percent 50, and on 100, 101,
104 it returns null. -/
theorem C3_conflict_detection (field : String) (thr : ℚ) (listings : List Listing) :
    ((fieldObservations field listings).length ≤ 1 →
        detect_conflicts field listings thr = .ok none)
    ∧ (∀ mx mn,
        (∀ o ∈ fieldObservations field listings, (toNum o.2).isSome = true) →
        2 ≤ (fieldObservations field listings).length →
        mx ∈ (fieldObservations field listings).filterMap (fun o => toNum o.2) →
        (∀ a ∈ (fieldObservations field listings).filterMap (fun o => toNum o.2), a ≤ mx) →
        mn ∈ (fieldObservations field listings).filterMap (fun o => toNum o.2) →
        (∀ a ∈ (fieldObservations field listings).filterMap (fun o => toNum o.2), mn ≤ a) →
        detect_conflicts field listings thr =
          .ok (if 0 < mx ∧ thr < (mx - mn) / mx
               then some ⟨field, fieldObservations field listings, some ((mx - mn) / mx * 100)⟩
               else none))
    ∧ detect_conflicts "p" wConf1 (1/20)
        = .ok (some ⟨"p", [("A", .num 100), ("B", .num 101), ("C", .num 200)], some 50⟩)
    ∧ detect_conflicts "p" wConf2 (1/20) = .ok none := by
  refine ⟨?_, ?_, by with_unfolding_all rfl, by with_unfolding_all rfl⟩
  · intro h
    simp only [detect_conflicts]
    rw [if_pos h]
  · intro mx mn hall h2 hmxm hmxu hmnm hmnl
    have hvals_all : ∀ v ∈ (fieldObservations field listings).map (fun o => o.2),
        (toNum v).isSome = true := by
      intro v hv
      rcases List.mem_map.mp hv with ⟨o, ho, rfl⟩
      exact hall o ho
    have hne : (fieldObservations field listings).map (fun o => o.2) ≠ [] := by
      intro hcon
      have hlen := congrArg List.length hcon
      rw [List.length_map, List.length_nil] at hlen
      omega
    obtain ⟨mx0, hmax1, hmax2, hmax3⟩ := numMax_spec _ hvals_all hne
    obtain ⟨mn0, hmin1, hmin2, hmin3⟩ := numMin_spec _ hvals_all hne
    have hfm : ((fieldObservations field listings).map (fun o => o.2)).filterMap toNum
        = (fieldObservations field listings).filterMap (fun o => toNum o.2) := by
      rw [List.filterMap_map]
      rfl
    rw [hfm] at hmax2 hmax3 hmin2 hmin3
    have hmx0 : mx0 = mx := le_antisymm (hmxu mx0 hmax2) (hmax3 mx hmxm)
    have hmn0 : mn0 = mn := le_antisymm (hmin3 mn hmnm) (hmnl mn0 hmin2)
    subst hmx0
    subst hmn0
    simp only [detect_conflicts]
    rw [if_neg (show ¬ ((fieldObservations field listings).length ≤ 1) from by omega)]
    rcases hobs : fieldObservations field listings with _ | ⟨⟨src, v1⟩, rest⟩
    · rw [hobs] at h2
      simp at h2
    · rw [hobs] at hmax1 hmin1 hall
      rcases v1 with q1 | s1
      · rw [hmax1, hmin1]
        by_cases hc1 : 0 < mx0
        · by_cases hc2 : thr < (mx0 - mn0) / mx0
          · simp [hc1, hc2]
          · simp [hc1, hc2]
        · simp [hc1]
      · have hh := hall (src, .str s1) (List.mem_cons_self _ _)
        simp [toNum] at hh

/-- Witness: a single observation yields no conflict through the
at-most-one clause. -/
theorem C3_conflict_detection_witness :
    detect_conflicts "p" wConf3 (1/20) = .ok none :=
  (C3_conflict_detection "p" (1/20) wConf3).1 (by with_unfolding_all decide)


/-! ## C8 -/

/-- C8 counterexample: normalization is not idempotent.  The
unit-designator pattern has no trailing word boundary, so it strips
UNIT off the front of the single word UNITST, exposing a fresh
standalone ST that only the second pass expands to STREET. -/
theorem C8_not_idempotent_counterexample :
    normalize_address "UNITST" = "UNIT ST"
    ∧ normalize_address (normalize_address "UNITST") = "UNIT STREET"
    ∧ normalize_address (normalize_address "UNITST") ≠ normalize_address "UNITST" := by
  refine ⟨by decide, by decide, by decide⟩

/-! ## C8 supporting lemmas: characters and substrings -/

/-- Word characters are never whitespace. -/
theorem isWordChar_not_space {c : Char} (h : pyIsSpace c = true) : isWordChar c = false := by
  simp [pyIsSpace] at h
  rcases h with ((((rfl | rfl) | rfl) | rfl) | rfl) | rfl <;> decide

/-- Characters of the plain alphabet are fixed by uppercasing. -/
theorem pyUpper_goodChar {c : Char} (h : goodChar c = true) : pyUpper c = c := by
  have hl : c.isLower = false := by
    simp [goodChar] at h
    rcases h with ((hu | hd) | rfl) | rfl
    · simp [Char.isUpper] at hu
      simp [Char.isLower]
      intro h2
      rcases hu with ⟨h1, h3⟩
      simp [UInt32.le_def, BitVec.le_def] at h2 h3 ⊢
      omega
    · simp [Char.isDigit] at hd
      simp [Char.isLower]
      intro h2
      rcases hd with ⟨h1, h3⟩
      simp [UInt32.le_def, BitVec.le_def] at h2 h3 ⊢
      omega
    · decide
    · decide
  simp [pyUpper, hl]

/-- Plain whitespace is exactly the space character. -/
theorem goodChar_space {c : Char} (h : goodChar c = true) (hs : pyIsSpace c = true) :
    c = ' ' := by
  simp [pyIsSpace] at hs
  rcases hs with ((((rfl | rfl) | rfl) | rfl) | rfl) | rfl <;>
    first | rfl | exact absurd h (by decide)

/-- The hash sign is not in the plain alphabet. -/
theorem goodChar_not_hash {c : Char} (h : goodChar c = true) : ¬ c = '#' := by
  rintro rfl
  exact absurd h (by decide)

/-- The substring test is literally the infix relation. -/
theorem containsSub_eq_true_iff (h n : List Char) : containsSub h n = true ↔ n <:+: h := by
  induction h with
  | nil =>
    simp [containsSub]
  | cons c t ih =>
    rw [List.infix_cons_iff]
    simp only [containsSub, Bool.or_eq_true, ih]
    constructor
    · rintro (hp | hi)
      · exact Or.inl (List.isPrefixOf_iff_prefix.mp hp)
      · exact Or.inr hi
    · rintro (hp | hi)
      · exact Or.inl (List.isPrefixOf_iff_prefix.mpr hp)
      · exact Or.inr hi

/-- Absence of a substring transfers to any infix. -/
theorem containsSub_false_mono {h h2 n : List Char} (hinf : h2 <:+: h)
    (hn : containsSub h n = false) : containsSub h2 n = false := by
  rw [← Bool.not_eq_true] at hn ⊢
  intro hc
  exact hn (containsSub_eq_true_iff h n |>.mpr ((containsSub_eq_true_iff h2 n |>.mp hc).trans hinf))

/-- Marker absence transfers to any infix. -/
theorem noUnitMarkers_of_infix {h h2 : List Char} (hinf : h2 <:+: h)
    (hn : noUnitMarkers h = true) : noUnitMarkers h2 = true := by
  simp only [noUnitMarkers, Bool.not_eq_true', Bool.or_eq_false_iff] at hn ⊢
  obtain ⟨⟨⟨h1, h2'⟩, h3⟩, h4⟩ := hn
  exact ⟨⟨⟨containsSub_false_mono hinf h1, containsSub_false_mono hinf h2'⟩,
    containsSub_false_mono hinf h3⟩, containsSub_false_mono hinf h4⟩

/-! ## C8 supporting lemmas: strip -/

/-- stripChars through the Mathlib right-drop. -/
theorem stripChars_eq_rdrop (l : List Char) :
    stripChars l = (l.dropWhile pyIsSpace).rdropWhile pyIsSpace := rfl

/-- The stripped string sits inside the original. -/
theorem stripChars_isInfix (l : List Char) : stripChars l <:+: l := by
  rw [stripChars_eq_rdrop]
  exact (List.rdropWhile_prefix _ _).isInfix.trans (List.dropWhile_suffix _).isInfix

/-- Stripping is idempotent. -/
theorem stripChars_idem (l : List Char) : stripChars (stripChars l) = stripChars l := by
  rw [stripChars_eq_rdrop, stripChars_eq_rdrop]
  have h1 : ((l.dropWhile pyIsSpace).rdropWhile pyIsSpace).dropWhile pyIsSpace
      = (l.dropWhile pyIsSpace).rdropWhile pyIsSpace := by
    rcases hh : (l.dropWhile pyIsSpace).rdropWhile pyIsSpace with _ | ⟨c, cs⟩
    · rfl
    · have hpre := List.rdropWhile_prefix pyIsSpace (l.dropWhile pyIsSpace)
      rw [hh] at hpre
      have hhead : (l.dropWhile pyIsSpace).head? = some c := by
        rcases hd : l.dropWhile pyIsSpace with _ | ⟨d, ds⟩
        · rw [hd] at hpre
          exact absurd (List.eq_nil_of_prefix_nil hpre) (by simp)
        · rw [hd] at hpre
          obtain ⟨t, ht⟩ := hpre
          injection ht with h1 h2
          rw [h1]
          rfl
      have hnotp : ¬ pyIsSpace c = true := by
        intro hp
        have hx := List.head?_dropWhile_not pyIsSpace l
        rw [hhead] at hx
        simp only at hx
        rw [hx] at hp
        cases hp
      rw [List.dropWhile_cons_of_neg hnotp]
  rw [h1, List.rdropWhile_idempotent]


/-! ## C8 supporting lemmas: whitespace collapsing -/

/-- Lifting a substring over a cons cell. -/
theorem containsSub_cons {t n : List Char} (c : Char) (h : containsSub t n = true) :
    containsSub (c :: t) n = true := by
  simp [containsSub, h]

/-- A prefix occurrence is a substring occurrence. -/
theorem containsSub_of_isPrefixOf {t n : List Char} (h : n.isPrefixOf t = true) :
    containsSub t n = true := by
  cases t with
  | nil =>
    have hn : n = [] := List.eq_nil_of_prefix_nil (List.isPrefixOf_iff_prefix.mp h)
    simp [hn, containsSub]
  | cons c cs => simp [containsSub, h]

/-- A nonempty all-word list is never a prefix of a space-headed
list. -/
theorem not_isPrefixOf_space {m : List Char} (hm : m.all isWordChar = true) (hne : m ≠ [])
    (c : Char) (hc : pyIsSpace c = true) (t : List Char) :
    m.isPrefixOf (c :: t) = false := by
  cases m with
  | nil => exact absurd rfl hne
  | cons a m2 =>
    rw [List.isPrefixOf_cons₂]
    simp only [List.all_cons, Bool.and_eq_true] at hm
    have hac : ¬ a = c := by
      rintro rfl
      rw [isWordChar_not_space hc] at hm
      exact absurd hm.1 (by simp)
    simp [hac]

/-- The collapsing scan preserves a character predicate that holds for
the space character. -/
theorem collapseAux_all {P : Char → Bool} (hP : P ' ' = true) :
    ∀ (l : List Char) (flag : Bool), l.all P = true → (collapseAux flag l).all P = true := by
  intro l
  induction l with
  | nil => intro flag _; rfl
  | cons c cs ih =>
    intro flag hall
    simp only [List.all_cons, Bool.and_eq_true] at hall
    unfold collapseAux
    by_cases hc : pyIsSpace c = true
    · rw [if_pos hc]
      cases flag with
      | true => simpa using ih true hall.2
      | false =>
        simp only [Bool.false_eq_true, if_false]
        simp [hP, ih true hall.2]
    · rw [if_neg hc]
      simp [hall.1, ih false hall.2]

/-- A word-character prefix of the collapsed output (in emit mode) is a
prefix of the input. -/
theorem collapseAux_word_prefix :
    ∀ (cs m : List Char), m.all isWordChar = true →
      m.isPrefixOf (collapseAux false cs) = true → m.isPrefixOf cs = true := by
  intro cs
  induction cs with
  | nil =>
    intro m _ hp
    unfold collapseAux at hp
    exact hp
  | cons d ds ih =>
    intro m hm hp
    unfold collapseAux at hp
    by_cases hd : pyIsSpace d = true
    · rw [if_pos hd] at hp
      cases m with
      | nil => simp
      | cons a m2 =>
        simp only [Bool.false_eq_true, if_false] at hp
        rw [not_isPrefixOf_space hm (by simp) ' ' (by decide) _] at hp
        cases hp
    · rw [if_neg hd] at hp
      cases m with
      | nil => simp
      | cons a m2 =>
        rw [List.isPrefixOf_cons₂] at hp ⊢
        simp only [Bool.and_eq_true] at hp
        simp only [List.all_cons, Bool.and_eq_true] at hm
        simp [hp.1, ih m2 hm.2 hp.2]

/-- All-word substrings of the collapsed output already occur in the
input. -/
theorem collapseAux_infix_reflect {m : List Char} (hm : m.all isWordChar = true)
    (hne : m ≠ []) :
    ∀ (cs : List Char) (flag : Bool),
      containsSub (collapseAux flag cs) m = true → containsSub cs m = true := by
  intro cs
  induction cs with
  | nil =>
    intro flag h
    unfold collapseAux at h
    simp [containsSub] at h
    exact absurd h hne
  | cons d ds ih =>
    intro flag h
    unfold collapseAux at h
    by_cases hd : pyIsSpace d = true
    · rw [if_pos hd] at h
      cases flag with
      | true => exact containsSub_cons d (ih true h)
      | false =>
        simp only [Bool.false_eq_true, if_false] at h
        simp only [containsSub, Bool.or_eq_true] at h
        rcases h with h | h
        · rw [not_isPrefixOf_space hm hne ' ' (by decide) _] at h
          cases h
        · exact containsSub_cons d (ih true h)
    · rw [if_neg hd] at h
      simp only [containsSub, Bool.or_eq_true] at h
      rcases h with h | h
      · cases m with
        | nil => exact absurd rfl hne
        | cons a m2 =>
          rw [List.isPrefixOf_cons₂] at h
          simp only [Bool.and_eq_true] at h
          simp only [List.all_cons, Bool.and_eq_true] at hm
          have hm2 : m2.isPrefixOf ds = true := collapseAux_word_prefix ds m2 hm.2 h.2
          have hpre : (a :: m2).isPrefixOf (d :: ds) = true := by
            rw [List.isPrefixOf_cons₂]
            simp [beq_iff_eq.mp h.1, hm2]
          exact containsSub_of_isPrefixOf hpre
      · exact containsSub_cons d (ih false h)

/-- The collapsing scan never emits two adjacent whitespace characters,
and in skip mode its output never starts with whitespace. -/
theorem collapseAux_nodbl :
    ∀ l : List Char, (∀ flag, noDblSpace (collapseAux flag l))
      ∧ (∀ c, (collapseAux true l).head? = some c → pyIsSpace c = false) := by
  intro l
  induction l with
  | nil =>
    refine ⟨fun flag => ?_, fun c h => ?_⟩
    · unfold collapseAux noDblSpace
      simp
    · unfold collapseAux at h
      cases h
  | cons c cs ih =>
    obtain ⟨ih1, ih2⟩ := ih
    constructor
    · intro flag
      unfold collapseAux
      by_cases hc : pyIsSpace c = true
      · rw [if_pos hc]
        cases flag with
        | true => exact ih1 true
        | false =>
          simp only [Bool.false_eq_true, if_false]
          unfold noDblSpace
          rw [List.chain'_cons']
          refine ⟨?_, ih1 true⟩
          intro b hb
          rw [ih2 b hb]
          simp
      · rw [if_neg hc]
        unfold noDblSpace
        rw [List.chain'_cons']
        refine ⟨?_, ih1 false⟩
        intro b _
        intro hpair
        exact hc hpair.1
    · intro c2 h2
      unfold collapseAux at h2
      by_cases hc : pyIsSpace c = true
      · rw [if_pos hc] at h2
        exact ih2 c2 h2
      · rw [if_neg hc] at h2
        injection h2 with h3
        rw [← h3]
        simpa using hc

/-- In no-skip mode the scan fixes strings with single plain spaces. -/
theorem collapseAux_true_eq_false (l : List Char)
    (h : ∀ c, l.head? = some c → pyIsSpace c = false) :
    collapseAux true l = collapseAux false l := by
  cases l with
  | nil => rfl
  | cons c cs =>
    have hc : pyIsSpace c = false := h c rfl
    unfold collapseAux
    rw [if_neg (by simp [hc]), if_neg (by simp [hc])]

/-- Collapsing fixes a string whose whitespace is single plain
spaces. -/
theorem collapseAux_id :
    ∀ l : List Char, noDblSpace l → (∀ c ∈ l, pyIsSpace c = true → c = ' ') →
      collapseAux false l = l := by
  intro l
  induction l with
  | nil => intro _ _; rfl
  | cons c cs ih =>
    intro hch hsp
    unfold collapseAux
    by_cases hc : pyIsSpace c = true
    · rw [if_pos hc]
      simp only [Bool.false_eq_true, if_false]
      have hcs : collapseAux true cs = collapseAux false cs := by
        apply collapseAux_true_eq_false
        intro d hd
        cases cs with
        | nil => cases hd
        | cons e es =>
          injection hd with hde
          subst hde
          unfold noDblSpace at hch
          rw [List.chain'_cons] at hch
          by_cases heq : pyIsSpace e = true
          · exact absurd ⟨hc, heq⟩ hch.1
          · simpa using heq
      rw [hcs, ih (List.Chain'.tail hch) (fun d hd hq => hsp d (List.mem_cons_of_mem c hd) hq)]
      rw [hsp c (List.mem_cons_self c cs) hc]
    · rw [if_neg hc]
      rw [ih (List.Chain'.tail hch) (fun d hd hq => hsp d (List.mem_cons_of_mem c hd) hq)]


/-! ## C8 supporting lemmas: chunk algebra -/

/-- Mapping the identity over word chunks changes nothing. -/
theorem mapWord_id (ch : Chunk) : mapWord (fun t => t) ch = ch := by
  cases ch <;> rfl

/-- Word maps compose chunkwise. -/
theorem mapWord_comp (f g : List Char → List Char) (ch : Chunk) :
    mapWord f (mapWord g ch) = mapWord (fun t => f (g t)) ch := by
  cases ch <;> rfl

/-- Mapping over word chunks preserves the head constructor. -/
theorem headIsWord_map (f : List Char → List Char) (cs : List Chunk) :
    headIsWord (cs.map (mapWord f)) = headIsWord cs := by
  cases cs with
  | nil => rfl
  | cons ch rest => cases ch <;> rfl

/-- Joining distributes over append. -/
theorem joinChunks_append (as bs : List Chunk) :
    joinChunks (as ++ bs) = joinChunks as ++ joinChunks bs := by
  induction as with
  | nil => rfl
  | cons ch rest ih =>
    cases ch with
    | word t => simp [joinChunks, ih]
    | sep c => simp [joinChunks, ih]

/-- Chunking then joining recovers the string. -/
theorem join_chunks (l : List Char) : joinChunks (chunks l) = l := by
  induction l with
  | nil => rfl
  | cons c cs ih =>
    by_cases hc : isWordChar c = true
    · simp only [chunks, if_pos hc]
      rcases hcs : chunks cs with _ | ⟨ch, rest⟩
      · rw [hcs] at ih
        simpa [joinChunks] using ih
      · cases ch with
        | word t =>
          rw [hcs] at ih
          simp only [joinChunks] at ih ⊢
          simp [ih]
        | sep d =>
          rw [hcs] at ih
          simp only [joinChunks] at ih ⊢
          simp [ih]
    · simp only [chunks, if_neg hc, joinChunks, ih]

/-- Chunking always produces a well-formed chunk list. -/
theorem chunks_wf (l : List Char) : chunksWF (chunks l) = true := by
  induction l with
  | nil => rfl
  | cons c cs ih =>
    by_cases hc : isWordChar c = true
    · simp only [chunks, if_pos hc]
      rcases hcs : chunks cs with _ | ⟨ch, rest⟩
      · simp [chunksWF, headIsWord, hc]
      · cases ch with
        | word t =>
          rw [hcs] at ih
          simp only [chunksWF, Bool.and_eq_true] at ih ⊢
          exact ⟨⟨⟨by simp, by simp [hc, ih.1.1.2]⟩, ih.1.2⟩, ih.2⟩
        | sep d =>
          rw [hcs] at ih
          simp only [chunksWF, Bool.and_eq_true] at ih ⊢
          exact ⟨⟨⟨by simp, by simp [hc]⟩, by simp [headIsWord]⟩, ih⟩
    · simp only [chunks, if_neg hc, chunksWF]
      simp only [Bool.and_eq_true, Bool.not_eq_true]
      exact ⟨by simpa using hc, ih⟩


/-- The cons equation of the chunking function. -/
theorem chunks_cons_eq (c : Char) (cs : List Char) :
    chunks (c :: cs) =
      if isWordChar c then
        match chunks cs with
        | Chunk.word t :: rest => Chunk.word (c :: t) :: rest
        | r => Chunk.word [c] :: r
      else Chunk.sep c :: chunks cs := rfl

/-- Prepending word characters onto a word-headed string extends its
first word run. -/
theorem chunks_word_append_word :
    ∀ (t l u : List Char) (rest : List Chunk), t.all isWordChar = true →
      chunks l = Chunk.word u :: rest → chunks (t ++ l) = Chunk.word (t ++ u) :: rest := by
  intro t
  induction t with
  | nil =>
    intro l u rest _ h2
    simpa using h2
  | cons a t2 ih =>
    intro l u rest ht h2
    simp only [List.all_cons, Bool.and_eq_true] at ht
    have hl : (a :: t2) ++ l = a :: (t2 ++ l) := rfl
    rw [hl, chunks_cons_eq, if_pos ht.1, ih l u rest ht.2 h2]
    rfl

/-- Prepending a nonempty word run onto a string with no leading word
run creates exactly one new chunk. -/
theorem chunks_word_append_nonword :
    ∀ (t l : List Char), t.all isWordChar = true → t ≠ [] →
      headIsWord (chunks l) = false → chunks (t ++ l) = Chunk.word t :: chunks l := by
  intro t
  induction t with
  | nil =>
    intro l _ hne _
    exact absurd rfl hne
  | cons a t2 ih =>
    intro l ht hne hh
    simp only [List.all_cons, Bool.and_eq_true] at ht
    have hl : (a :: t2) ++ l = a :: (t2 ++ l) := rfl
    rw [hl, chunks_cons_eq, if_pos ht.1]
    cases t2 with
    | nil =>
      rcases hcl : chunks l with _ | ⟨ch, r⟩
      · rw [show ([] : List Char) ++ l = l from rfl, hcl]
      · cases ch with
        | word u =>
          rw [hcl] at hh
          simp [headIsWord] at hh
        | sep d =>
          rw [show ([] : List Char) ++ l = l from rfl, hcl]
    | cons b t3 =>
      rw [ih l ht.2 (by simp) hh]

/-- Joining then re-chunking recovers any well-formed chunk list. -/
theorem rechunk : ∀ cs : List Chunk, chunksWF cs = true → chunks (joinChunks cs) = cs := by
  intro cs
  induction cs with
  | nil =>
    intro _
    rfl
  | cons ch rest ih =>
    intro h
    cases ch with
    | word t =>
      simp only [chunksWF, Bool.and_eq_true] at h
      obtain ⟨⟨⟨h1, h2⟩, h3⟩, h4⟩ := h
      have htne : t ≠ [] := by
        intro he
        subst he
        simp [List.isEmpty] at h1
      have hrest := ih h4
      show chunks (t ++ joinChunks rest) = Chunk.word t :: rest
      rw [chunks_word_append_nonword t (joinChunks rest) h2 htne
        (by rw [hrest]; simpa using h3), hrest]
    | sep c =>
      simp only [chunksWF, Bool.and_eq_true] at h
      show chunks (c :: joinChunks rest) = Chunk.sep c :: rest
      simp only [chunks, if_neg (show ¬ isWordChar c = true from by simpa using h.1)]
      rw [ih h.2]

/-- A word map sending nonempty word runs to nonempty word runs
preserves well-formedness. -/
theorem chunksWF_map (f : List Char → List Char)
    (hf : ∀ t : List Char, t ≠ [] → t.all isWordChar = true →
      f t ≠ [] ∧ (f t).all isWordChar = true) :
    ∀ cs : List Chunk, chunksWF cs = true → chunksWF (cs.map (mapWord f)) = true := by
  intro cs
  induction cs with
  | nil =>
    intro _
    rfl
  | cons ch rest ih =>
    intro h
    cases ch with
    | word t =>
      simp only [chunksWF, Bool.and_eq_true] at h
      obtain ⟨⟨⟨h1, h2⟩, h3⟩, h4⟩ := h
      have htne : t ≠ [] := by
        intro he
        subst he
        simp [List.isEmpty] at h1
      obtain ⟨hf1, hf2⟩ := hf t htne h2
      simp only [List.map_cons, mapWord, chunksWF, Bool.and_eq_true]
      refine ⟨⟨⟨?_, hf2⟩, ?_⟩, ih h4⟩
      · simpa using hf1
      · rw [headIsWord_map]
        exact h3
    | sep c =>
      simp only [chunksWF, Bool.and_eq_true] at h
      simp only [List.map_cons, mapWord, chunksWF, Bool.and_eq_true]
      exact ⟨h.1, ih h.2⟩


/-- A character predicate holds on a join exactly when it holds on
every chunk. -/
theorem join_all (P : Char → Bool) :
    ∀ cs : List Chunk, (joinChunks cs).all P = cs.all (chunkAll P) := by
  intro cs
  induction cs with
  | nil => rfl
  | cons ch rest ih =>
    cases ch with
    | word t => simp [joinChunks, chunkAll, List.all_append, ih]
    | sep c => simp [joinChunks, chunkAll, ih]

/-- Every word token of a chunk list is an infix of its join. -/
theorem token_infix : ∀ (cs : List Chunk) (t : List Char),
    Chunk.word t ∈ cs → t <:+: joinChunks cs := by
  intro cs
  induction cs with
  | nil =>
    intro t ht
    cases ht
  | cons ch rest ih =>
    intro t ht
    rcases List.mem_cons.mp ht with heq | hmem
    · cases heq
      exact ⟨[], joinChunks rest, by simp [joinChunks]⟩
    · have hrec := ih t hmem
      cases ch with
      | word u => exact hrec.trans ⟨u, [], by simp [joinChunks]⟩
      | sep c => exact hrec.trans ⟨[c], [], by simp [joinChunks]⟩

/-- A nonempty all-word prefix of a string is a prefix of its first
word run. -/
theorem word_prefix_token : ∀ (m l : List Char), m.all isWordChar = true → m ≠ [] →
    m.isPrefixOf l = true → ∃ u rest, chunks l = Chunk.word u :: rest ∧ m <+: u := by
  intro m
  induction m with
  | nil =>
    intro l _ hne _
    exact absurd rfl hne
  | cons a m2 ih =>
    intro l hm _ hp
    simp only [List.all_cons, Bool.and_eq_true] at hm
    cases l with
    | nil => simp [List.isPrefixOf] at hp
    | cons b l2 =>
      simp only [List.isPrefixOf, Bool.and_eq_true, beq_iff_eq] at hp
      obtain ⟨hab, hp2⟩ := hp
      subst hab
      cases m2 with
      | nil =>
        rcases hcl : chunks l2 with _ | ⟨ch, r⟩
        · exact ⟨[a], [], by rw [chunks_cons_eq, if_pos hm.1, hcl], by simp⟩
        · cases ch with
          | word u =>
            exact ⟨a :: u, r, by rw [chunks_cons_eq, if_pos hm.1, hcl], by simp⟩
          | sep d =>
            exact ⟨[a], Chunk.sep d :: r, by rw [chunks_cons_eq, if_pos hm.1, hcl], by simp⟩
      | cons c2 m3 =>
        obtain ⟨u, rest, hcu, hpre⟩ := ih l2 hm.2 (by simp) hp2
        exact ⟨a :: u, rest, by rw [chunks_cons_eq, if_pos hm.1, hcu],
          List.cons_prefix_cons.mpr ⟨rfl, hpre⟩⟩

/-- A nonempty all-word substring of a string is a substring of one of
its word runs. -/
theorem containsSub_token : ∀ (l m : List Char), m.all isWordChar = true → m ≠ [] →
    containsSub l m = true → ∃ t, Chunk.word t ∈ chunks l ∧ containsSub t m = true := by
  intro l
  induction l with
  | nil =>
    intro m _ hne hc
    simp [containsSub, List.isEmpty_iff] at hc
    exact absurd hc hne
  | cons c cs ih =>
    intro m hm hne hc
    simp only [containsSub, Bool.or_eq_true] at hc
    rcases hc with hp | hrec
    · obtain ⟨u, rest, hcu, hpre⟩ := word_prefix_token m (c :: cs) hm hne hp
      refine ⟨u, ?_, ?_⟩
      · rw [hcu]
        exact List.mem_cons_self _ _
      · exact containsSub_of_isPrefixOf (List.isPrefixOf_iff_prefix.mpr hpre)
    · obtain ⟨t, htm, hts⟩ := ih m hm hne hrec
      by_cases hcw : isWordChar c = true
      · rcases hcs : chunks cs with _ | ⟨ch, r⟩
        · rw [hcs] at htm
          cases htm
        · cases ch with
          | word u =>
            rw [hcs] at htm
            rcases List.mem_cons.mp htm with heq | hmem
            · injection heq with hteq
              subst hteq
              refine ⟨c :: t, ?_, containsSub_cons c hts⟩
              rw [chunks_cons_eq, if_pos hcw, hcs]
              exact List.mem_cons_self _ _
            · refine ⟨t, ?_, hts⟩
              rw [chunks_cons_eq, if_pos hcw, hcs]
              exact List.mem_cons_of_mem _ hmem
          | sep d =>
            refine ⟨t, ?_, hts⟩
            rw [chunks_cons_eq, if_pos hcw, hcs]
            rw [hcs] at htm
            exact List.mem_cons_of_mem _ htm
      · refine ⟨t, ?_, hts⟩
        rw [chunks_cons_eq, if_neg hcw]
        exact List.mem_cons_of_mem _ htm


/-- The tail of a well-formed chunk list is well formed. -/
theorem chunksWF_tail : ∀ {ch : Chunk} {rest : List Chunk},
    chunksWF (ch :: rest) = true → chunksWF rest = true := by
  intro ch rest h
  cases ch with
  | word t =>
    simp only [chunksWF, Bool.and_eq_true] at h
    exact h.2
  | sep c =>
    simp only [chunksWF, Bool.and_eq_true] at h
    exact h.2

/-- Word tokens of a well-formed chunk list are nonempty word runs. -/
theorem chunksWF_mem : ∀ cs : List Chunk, chunksWF cs = true → ∀ t, Chunk.word t ∈ cs →
    t ≠ [] ∧ t.all isWordChar = true := by
  intro cs
  induction cs with
  | nil =>
    intro _ t ht
    cases ht
  | cons ch rest ih =>
    intro h t ht
    rcases List.mem_cons.mp ht with heq | hmem
    · subst heq
      simp only [chunksWF, Bool.and_eq_true] at h
      obtain ⟨⟨⟨h1, h2⟩, _⟩, _⟩ := h
      refine ⟨?_, h2⟩
      intro he
      subst he
      simp [List.isEmpty] at h1
    · exact ih (chunksWF_tail h) t hmem

/-- Dropping a chunk prefix preserves well-formedness. -/
theorem chunksWF_dropWhile (p : Chunk → Bool) :
    ∀ cs : List Chunk, chunksWF cs = true → chunksWF (cs.dropWhile p) = true := by
  intro cs
  induction cs with
  | nil =>
    intro _
    rfl
  | cons ch rest ih =>
    intro h
    rw [List.dropWhile_cons]
    by_cases hp : p ch = true
    · rw [if_pos hp]
      exact ih (chunksWF_tail h)
    · rw [if_neg hp]
      exact h

/-- A word-headed chunk list stays word headed under append. -/
theorem headIsWord_append : ∀ (as bs : List Chunk), headIsWord as = true →
    headIsWord (as ++ bs) = true := by
  intro as bs h
  cases as with
  | nil => simp [headIsWord] at h
  | cons ch r =>
    cases ch with
    | word t => rfl
    | sep c => simp [headIsWord] at h

/-- A chunk-list prefix of a well-formed list is well formed. -/
theorem chunksWF_append_left : ∀ (as bs : List Chunk),
    chunksWF (as ++ bs) = true → chunksWF as = true := by
  intro as
  induction as with
  | nil =>
    intro _ _
    rfl
  | cons ch rest ih =>
    intro bs h
    cases ch with
    | word t =>
      simp only [List.cons_append, List.append_eq, chunksWF, Bool.and_eq_true] at h ⊢
      obtain ⟨⟨⟨h1, h2⟩, h3⟩, h4⟩ := h
      refine ⟨⟨⟨h1, h2⟩, ?_⟩, ih bs h4⟩
      by_cases hr : headIsWord rest = true
      · rw [headIsWord_append rest bs hr] at h3
        simpa using h3
      · simpa using hr
    | sep c =>
      simp only [List.cons_append, List.append_eq, chunksWF, Bool.and_eq_true] at h ⊢
      exact ⟨h.1, ih bs h.2⟩

/-- Whitespace-prefix dropping commutes with joining: it removes
exactly the leading whitespace separator chunks. -/
theorem join_dropWhile : ∀ cs : List Chunk, chunksWF cs = true →
    (joinChunks cs).dropWhile pyIsSpace = joinChunks (cs.dropWhile chunkSpace) := by
  intro cs
  induction cs with
  | nil =>
    intro _
    rfl
  | cons ch rest ih =>
    intro h
    cases ch with
    | word t =>
      simp only [chunksWF, Bool.and_eq_true] at h
      obtain ⟨⟨⟨h1, h2⟩, _⟩, _⟩ := h
      cases t with
      | nil => simp [List.isEmpty] at h1
      | cons a t2 =>
        have ha : isWordChar a = true := by
          simp only [List.all_cons, Bool.and_eq_true] at h2
          exact h2.1
        have hns : pyIsSpace a = false := by
          by_cases hsp : pyIsSpace a = true
          · rw [isWordChar_not_space hsp] at ha
            cases ha
          · simpa using hsp
        show (a :: (t2 ++ joinChunks rest)).dropWhile pyIsSpace
            = joinChunks ((Chunk.word (a :: t2) :: rest).dropWhile chunkSpace)
        rw [List.dropWhile_cons, if_neg (by simp [hns]), List.dropWhile_cons,
          if_neg (show ¬ chunkSpace (Chunk.word (a :: t2)) = true from by simp [chunkSpace])]
        rfl
    | sep c =>
      by_cases hcs : pyIsSpace c = true
      · show (c :: joinChunks rest).dropWhile pyIsSpace = _
        rw [List.dropWhile_cons, if_pos hcs, List.dropWhile_cons,
          if_pos (show chunkSpace (Chunk.sep c) = true from hcs)]
        exact ih (chunksWF_tail h)
      · show (c :: joinChunks rest).dropWhile pyIsSpace = _
        rw [List.dropWhile_cons, if_neg (by simp [hcs]), List.dropWhile_cons,
          if_neg (show ¬ chunkSpace (Chunk.sep c) = true from by simp [chunkSpace, hcs])]
        rfl

/-- Whitespace-suffix dropping commutes with joining: it removes
exactly the trailing whitespace separator chunks. -/
theorem join_rdropWhile : ∀ cs : List Chunk, chunksWF cs = true →
    (joinChunks cs).rdropWhile pyIsSpace = joinChunks (cs.rdropWhile chunkSpace) := by
  intro cs
  induction cs using List.reverseRecOn with
  | nil =>
    intro _
    rfl
  | append_singleton as ch ih =>
    intro h
    have has : chunksWF as = true := chunksWF_append_left as [ch] h
    cases ch with
    | word t =>
      have hmem : Chunk.word t ∈ as ++ [Chunk.word t] :=
        List.mem_append_right _ (List.mem_cons_self _ _)
      obtain ⟨htne, htw⟩ := chunksWF_mem _ h t hmem
      rcases List.eq_nil_or_concat t with rfl | ⟨t0, a, rfl⟩
      · exact absurd rfl htne
      · simp only [List.concat_eq_append] at h htne htw ⊢
        have ha : isWordChar a = true := by
          simp only [List.all_append, List.all_cons, List.all_nil, Bool.and_eq_true] at htw
          exact htw.2.1
        have hans : pyIsSpace a = false := by
          by_cases hsp : pyIsSpace a = true
          · rw [isWordChar_not_space hsp] at ha
            cases ha
          · simpa using hsp
        have hj : joinChunks [Chunk.word (t0 ++ [a])] = t0 ++ [a] := by simp [joinChunks]
        rw [joinChunks_append, hj, ← List.append_assoc,
          List.rdropWhile_concat_neg _ _ _ (by simp [hans]),
          List.rdropWhile_concat_neg _ _ _
            (show ¬ chunkSpace (Chunk.word (t0 ++ [a])) = true from by simp [chunkSpace]),
          joinChunks_append, hj, ← List.append_assoc]
    | sep c =>
      have hj : joinChunks [Chunk.sep c] = [c] := by simp [joinChunks]
      by_cases hcs : pyIsSpace c = true
      · rw [joinChunks_append, hj, List.rdropWhile_concat_pos _ _ _ hcs,
          List.rdropWhile_concat_pos _ _ _ (show chunkSpace (Chunk.sep c) = true from hcs)]
        exact ih has
      · rw [joinChunks_append, hj, List.rdropWhile_concat_neg _ _ _ (by simp [hcs]),
          List.rdropWhile_concat_neg _ _ _
            (show ¬ chunkSpace (Chunk.sep c) = true from by simp [chunkSpace, hcs]),
          joinChunks_append, hj]


/-- A word character is never whitespace. -/
theorem space_false_of_word {c : Char} (h : isWordChar c = true) : pyIsSpace c = false := by
  by_cases hs : pyIsSpace c = true
  · rw [isWordChar_not_space hs] at h
    cases h
  · simpa using hs

/-- The tail of a list without adjacent whitespace separators has
none either. -/
theorem noDbl_tail : ∀ (ch : Chunk) (rest : List Chunk),
    noDblSpaceChunks (ch :: rest) = true → noDblSpaceChunks rest = true := by
  intro ch rest h
  cases ch with
  | word t => exact h
  | sep c =>
    cases rest with
    | nil => rfl
    | cons ch2 r2 =>
      cases ch2 with
      | word u => exact h
      | sep d =>
        have h2 : (!(pyIsSpace c && pyIsSpace d)
            && noDblSpaceChunks (Chunk.sep d :: r2)) = true := h
        rw [Bool.and_eq_true] at h2
        exact h2.2

/-- A separator-headed chunking forces the same head character. -/
theorem chunks_sep_head : ∀ (l : List Char) (d : Char) (r : List Chunk),
    chunks l = Chunk.sep d :: r → ∃ l2, l = d :: l2 := by
  intro l d r h
  cases l with
  | nil => simp [chunks] at h
  | cons c cs =>
    by_cases hc : isWordChar c = true
    · rw [chunks_cons_eq, if_pos hc] at h
      rcases hcs : chunks cs with _ | ⟨ch, rr⟩
      · rw [hcs] at h
        simp at h
      · cases ch with
        | word u =>
          rw [hcs] at h
          simp at h
        | sep e =>
          rw [hcs] at h
          simp at h
    · rw [chunks_cons_eq, if_neg hc] at h
      injection h with h1 h2
      injection h1 with h3
      exact ⟨cs, by rw [h3]⟩

/-- A string without adjacent whitespace chunks into a list without
adjacent whitespace separators. -/
theorem noDbl_of_chain : ∀ l : List Char, noDblSpace l → noDblSpaceChunks (chunks l) = true := by
  intro l
  induction l with
  | nil =>
    intro _
    rfl
  | cons c cs ih =>
    intro h
    have htail : noDblSpace cs := List.Chain'.tail h
    by_cases hc : isWordChar c = true
    · rw [chunks_cons_eq, if_pos hc]
      rcases hcs : chunks cs with _ | ⟨ch, r⟩
      · rfl
      · cases ch with
        | word u =>
          have hr := ih htail
          rw [hcs] at hr
          exact hr
        | sep d =>
          have hr := ih htail
          rw [hcs] at hr
          exact hr
    · rw [chunks_cons_eq, if_neg hc]
      rcases hcs : chunks cs with _ | ⟨ch, r⟩
      · rfl
      · cases ch with
        | word u =>
          have hr := ih htail
          rw [hcs] at hr
          exact hr
        | sep d =>
          have hr := ih htail
          rw [hcs] at hr
          obtain ⟨cs2, hcs2⟩ := chunks_sep_head cs d r hcs
          subst hcs2
          have hrel : ¬(pyIsSpace c = true ∧ pyIsSpace d = true) := (List.chain'_cons.mp h).1
          show (!(pyIsSpace c && pyIsSpace d) && noDblSpaceChunks (Chunk.sep d :: r)) = true
          rw [Bool.and_eq_true]
          refine ⟨?_, hr⟩
          by_cases h1 : pyIsSpace c = true
          · by_cases h2 : pyIsSpace d = true
            · exact absurd ⟨h1, h2⟩ hrel
            · simp [h1, h2]
          · simp [h1]

/-- Word maps never create adjacent whitespace separators. -/
theorem noDbl_map (f : List Char → List Char) :
    ∀ cs : List Chunk, noDblSpaceChunks (cs.map (mapWord f)) = noDblSpaceChunks cs := by
  intro cs
  induction cs with
  | nil => rfl
  | cons ch rest ih =>
    cases ch with
    | word t => exact ih
    | sep c =>
      cases rest with
      | nil => rfl
      | cons ch2 r2 =>
        cases ch2 with
        | word u => exact ih
        | sep d =>
          show (!(pyIsSpace c && pyIsSpace d)
              && noDblSpaceChunks (Chunk.sep d :: r2.map (mapWord f)))
            = (!(pyIsSpace c && pyIsSpace d) && noDblSpaceChunks (Chunk.sep d :: r2))
          have ih2 : noDblSpaceChunks (Chunk.sep d :: r2.map (mapWord f))
              = noDblSpaceChunks (Chunk.sep d :: r2) := ih
          rw [ih2]

/-- A prefix of a list without adjacent whitespace separators has
none either. -/
theorem noDbl_append_left : ∀ (as bs : List Chunk),
    noDblSpaceChunks (as ++ bs) = true → noDblSpaceChunks as = true := by
  intro as
  induction as with
  | nil =>
    intro _ _
    rfl
  | cons ch rest ih =>
    intro bs h
    cases ch with
    | word t => exact ih bs h
    | sep c =>
      cases rest with
      | nil => rfl
      | cons ch2 r2 =>
        cases ch2 with
        | word u => exact ih bs h
        | sep d =>
          have h2 : (!(pyIsSpace c && pyIsSpace d)
              && noDblSpaceChunks ((Chunk.sep d :: r2) ++ bs)) = true := h
          rw [Bool.and_eq_true] at h2
          show (!(pyIsSpace c && pyIsSpace d) && noDblSpaceChunks (Chunk.sep d :: r2)) = true
          rw [Bool.and_eq_true]
          exact ⟨h2.1, ih bs h2.2⟩

/-- The collapsing scan passes over word characters unchanged. -/
theorem collapseAux_words : ∀ (t z : List Char), t.all isWordChar = true →
    collapseAux false (t ++ z) = t ++ collapseAux false z := by
  intro t
  induction t with
  | nil =>
    intro z _
    rfl
  | cons a t2 ih =>
    intro z ht
    simp only [List.all_cons, Bool.and_eq_true] at ht
    have hns : pyIsSpace a = false := space_false_of_word ht.1
    have hcons : collapseAux false (a :: (t2 ++ z))
        = if pyIsSpace a then ' ' :: collapseAux true (t2 ++ z)
          else a :: collapseAux false (t2 ++ z) := rfl
    show collapseAux false (a :: (t2 ++ z)) = (a :: t2) ++ collapseAux false z
    rw [hcons, if_neg (by simp [hns]), ih z ht.2]
    rfl

/-- Collapsing fixes the join of a well-formed chunk list whose
whitespace separators are single plain spaces. -/
theorem collapse_join : ∀ cs : List Chunk, chunksWF cs = true → noDblSpaceChunks cs = true →
    (∀ c, Chunk.sep c ∈ cs → pyIsSpace c = true → c = ' ') →
    collapseAux false (joinChunks cs) = joinChunks cs := by
  intro cs
  induction cs with
  | nil =>
    intro _ _ _
    rfl
  | cons ch rest ih =>
    intro hwf hnd hsp
    have hwf2 := chunksWF_tail hwf
    have hnd2 := noDbl_tail ch rest hnd
    have hsp2 : ∀ c, Chunk.sep c ∈ rest → pyIsSpace c = true → c = ' ' :=
      fun c hc => hsp c (List.mem_cons_of_mem _ hc)
    cases ch with
    | word t =>
      obtain ⟨htne, htw⟩ := chunksWF_mem _ hwf t (List.mem_cons_self _ _)
      show collapseAux false (t ++ joinChunks rest) = t ++ joinChunks rest
      rw [collapseAux_words t _ htw, ih hwf2 hnd2 hsp2]
    | sep c =>
      by_cases hc : pyIsSpace c = true
      · have hceq : c = ' ' := hsp c (List.mem_cons_self _ _) hc
        show collapseAux false (c :: joinChunks rest) = c :: joinChunks rest
        unfold collapseAux
        rw [if_pos hc]
        simp only [Bool.false_eq_true, if_false]
        rw [hceq]
        congr 1
        have hhead : ∀ d, (joinChunks rest).head? = some d → pyIsSpace d = false := by
          intro d hd
          cases rest with
          | nil => cases hd
          | cons ch2 r2 =>
            cases ch2 with
            | word u =>
              obtain ⟨hune, huw⟩ := chunksWF_mem _ hwf2 u (List.mem_cons_self _ _)
              cases u with
              | nil => exact absurd rfl hune
              | cons a u2 =>
                have hd2 : (some a : Option Char) = some d := hd
                injection hd2 with he
                subst he
                simp only [List.all_cons, Bool.and_eq_true] at huw
                exact space_false_of_word huw.1
            | sep d2 =>
              have hd2 : (some d2 : Option Char) = some d := hd
              injection hd2 with he
              subst he
              have hnd3 : (!(pyIsSpace c && pyIsSpace d2)
                  && noDblSpaceChunks (Chunk.sep d2 :: r2)) = true := hnd
              rw [Bool.and_eq_true] at hnd3
              by_cases h2 : pyIsSpace d2 = true
              · have := hnd3.1
                rw [hc, h2] at this
                simp at this
              · simpa using h2
        rw [collapseAux_true_eq_false _ hhead, ih hwf2 hnd2 hsp2]
      · show collapseAux false (c :: joinChunks rest) = c :: joinChunks rest
        unfold collapseAux
        rw [if_neg (by simp [hc]), ih hwf2 hnd2 hsp2]


/-! ## C8 supporting lemmas: token fixed points -/

/-- One fold step of a substitution table. -/
theorem tableFun_cons (p : List Char × List Char) (ps : List (List Char × List Char))
    (t : List Char) : tableFun (p :: ps) t = tableFun ps (if t = p.1 then p.2 else t) := rfl

/-- A table either fixes a token or rewrites it to one of its
replacement values. -/
theorem tableFun_eq_self_or_mem : ∀ (table : List (List Char × List Char)) (t : List Char),
    tableFun table t = t ∨ tableFun table t ∈ table.map Prod.snd := by
  intro table
  induction table with
  | nil =>
    intro t
    exact Or.inl rfl
  | cons p ps ih =>
    intro t
    rw [tableFun_cons]
    by_cases hp : t = p.1
    · rw [if_pos hp]
      rcases ih p.2 with h | h
      · rw [h]
        exact Or.inr (List.mem_cons_self _ _)
      · exact Or.inr (List.mem_cons_of_mem _ h)
    · rw [if_neg hp]
      rcases ih t with h | h
      · exact Or.inl h
      · exact Or.inr (List.mem_cons_of_mem _ h)

/-- A token equal to no key is fixed by the table. -/
theorem tableFun_eq_self_of_ne : ∀ (table : List (List Char × List Char)) (t : List Char),
    (∀ p ∈ table, ¬ t = p.1) → tableFun table t = t := by
  intro table
  induction table with
  | nil =>
    intro t _
    rfl
  | cons p ps ih =>
    intro t h
    rw [tableFun_cons, if_neg (h p (List.mem_cons_self _ _)),
      ih t (fun q hq => h q (List.mem_cons_of_mem _ hq))]

/-- No character is both a digit and an uppercase letter. -/
theorem not_digit_upper {c : Char} (hd : c.isDigit = true) (hu : c.isUpper = true) : False := by
  simp [Char.isDigit] at hd
  simp [Char.isUpper] at hu
  obtain ⟨hd1, hd2⟩ := hd
  obtain ⟨hu1, hu2⟩ := hu
  simp [UInt32.le_def, BitVec.le_def] at hd1 hd2 hu1 hu2
  omega

/-- Every key of the street-suffix table starts with a capital. -/
theorem suffixKeys_upper :
    streetSuffixTable.all
      (fun p => match p.1 with | k :: _ => k.isUpper | [] => false) = true := by decide

/-- Every key of the directional table starts with a capital. -/
theorem dirKeys_upper :
    directionalTable.all
      (fun p => match p.1 with | k :: _ => k.isUpper | [] => false) = true := by decide

/-- A digit-headed token matches no key of a capital-keyed table. -/
theorem tableFun_digit_head (table : List (List Char × List Char))
    (hk : table.all (fun p => match p.1 with | k :: _ => k.isUpper | [] => false) = true)
    (a : Char) (ha : a.isDigit = true) (t : List Char) :
    tableFun table (a :: t) = a :: t := by
  apply tableFun_eq_self_of_ne
  intro p hp heq
  have hkp : (match p.1 with | k :: _ => k.isUpper | [] => false) = true :=
    List.all_eq_true.mp hk p hp
  rcases hq : p.1 with _ | ⟨k, kr⟩
  · rw [hq] at hkp
    simp at hkp
  · rw [hq] at hkp heq
    have hku : k.isUpper = true := hkp
    injection heq with h1 h2
    subst h1
    exact not_digit_upper ha hku

/-- The three possible shapes of the leading-zero fix. -/
theorem zfix_spec (t : List Char) :
    zfix t = t ∨ (t.all Char.isDigit = true ∧
      (zfix t = ['0'] ∨ zfix t = t.dropWhile (fun c => c = '0'))) := by
  simp only [zfix]
  split
  · next hg =>
    rw [Bool.and_eq_true, Bool.and_eq_true] at hg
    refine Or.inr ⟨hg.1.1, ?_⟩
    split
    · exact Or.inl rfl
    · exact Or.inr rfl
  · exact Or.inl rfl

/-- A token whose head is not a zero is fixed by the zero rule. -/
theorem zfix_head_ne (t : List Char) (x : Char) (hx : t.head? = some x) (hne : ¬ x = '0') :
    zfix t = t := by
  simp only [zfix]
  rw [hx]
  simp [hne]

/-- The leading-zero fix is idempotent. -/
theorem zfix_idem (t : List Char) : zfix (zfix t) = zfix t := by
  rcases zfix_spec t with h | ⟨hdig, h | h⟩
  · rw [h]
    exact h
  · rw [h]
    decide
  · rw [h]
    rcases hdw : t.dropWhile (fun c => c = '0') with _ | ⟨x, xs⟩
    · decide
    · have hx : ¬ x = '0' := by
        have hxx := List.head?_dropWhile_not (fun c => decide (c = '0')) t
        rw [hdw] at hxx
        simpa using hxx
      exact zfix_head_ne (x :: xs) x rfl hx

/-- The leading-zero fix preserves any character set containing the
zero digit. -/
theorem zfix_all (P : Char → Bool) (hP : P '0' = true) (t : List Char) (h : t.all P = true) :
    (zfix t).all P = true := by
  rcases zfix_spec t with hz | ⟨_, hz | hz⟩
  · rw [hz]
    exact h
  · rw [hz]
    simp [hP]
  · rw [hz]
    rw [List.all_eq_true] at h ⊢
    exact fun x hx => h x ((List.dropWhile_sublist _).subset hx)

/-- The leading-zero fix sends nonempty word runs to nonempty word
runs. -/
theorem zfix_token (t : List Char) (hne : t ≠ []) (hw : t.all isWordChar = true) :
    zfix t ≠ [] ∧ (zfix t).all isWordChar = true := by
  constructor
  · simp only [zfix]
    split
    · split
      · simp
      · next hre => simpa using hre
    · exact hne
  · exact zfix_all isWordChar (by decide) t hw

/-- All replacement values of the street-suffix table are fixed,
marker-free, nonempty word runs over the plain alphabet. -/
theorem suffixRHS_ok :
    (streetSuffixTable.map Prod.snd).all (fun r =>
      decide (tableFun streetSuffixTable r = r) && decide (tableFun directionalTable r = r)
        && decide (zfix r = r) && noMarkerTok r && r.all goodChar && r.all isWordChar
        && decide (¬ r = [])) = true := by decide

/-- All replacement values of the directional table are fixed,
marker-free, nonempty word runs over the plain alphabet. -/
theorem dirRHS_ok :
    (directionalTable.map Prod.snd).all (fun r =>
      decide (tableFun streetSuffixTable r = r) && decide (tableFun directionalTable r = r)
        && decide (zfix r = r) && noMarkerTok r && r.all goodChar && r.all isWordChar
        && decide (¬ r = [])) = true := by decide

/-- The collected properties of any table replacement value. -/
theorem expansion_props (r : List Char)
    (hr : r ∈ streetSuffixTable.map Prod.snd ∨ r ∈ directionalTable.map Prod.snd) :
    tableFun streetSuffixTable r = r ∧ tableFun directionalTable r = r ∧ zfix r = r
      ∧ noMarkerTok r = true ∧ r.all goodChar = true ∧ r ≠ []
      ∧ r.all isWordChar = true := by
  have hall : (decide (tableFun streetSuffixTable r = r)
      && decide (tableFun directionalTable r = r)
      && decide (zfix r = r) && noMarkerTok r && r.all goodChar && r.all isWordChar
      && decide (¬ r = [])) = true := by
    rcases hr with h | h
    · exact List.all_eq_true.mp suffixRHS_ok r h
    · exact List.all_eq_true.mp dirRHS_ok r h
  simp only [Bool.and_eq_true, decide_eq_true_eq] at hall
  exact ⟨hall.1.1.1.1.1.1, hall.1.1.1.1.1.2, hall.1.1.1.1.2, hall.1.1.1.2, hall.1.1.2,
    hall.2, hall.1.2⟩

/-- The composite token pass is idempotent. -/
theorem tokFix_idem (t : List Char) : tokFix (tokFix t) = tokFix t := by
  rcases tableFun_eq_self_or_mem streetSuffixTable t with hS | hS
  · rcases tableFun_eq_self_or_mem directionalTable t with hD | hD
    · have ht : tokFix t = zfix t := by
        unfold tokFix
        rw [hS, hD]
      rw [ht]
      rcases zfix_spec t with hz | ⟨hdig, hz | hz⟩
      · rw [hz]
        unfold tokFix
        rw [hS, hD, hz]
      · rw [hz]
        decide
      · rw [hz]
        rcases hdw : t.dropWhile (fun c => c = '0') with _ | ⟨x, xs⟩
        · decide
        · have hx : ¬ x = '0' := by
            have hxx := List.head?_dropWhile_not (fun c => decide (c = '0')) t
            rw [hdw] at hxx
            simpa using hxx
          have hxd : x.isDigit = true := by
            have hsub : (x :: xs).all Char.isDigit = true := by
              rw [List.all_eq_true] at hdig ⊢
              intro c hc
              exact hdig c ((List.dropWhile_sublist _).subset (hdw ▸ hc))
            simp only [List.all_cons, Bool.and_eq_true] at hsub
            exact hsub.1
          unfold tokFix
          rw [tableFun_digit_head _ suffixKeys_upper x hxd xs,
            tableFun_digit_head _ dirKeys_upper x hxd xs,
            zfix_head_ne (x :: xs) x rfl hx]
    · obtain ⟨p1, p2, p3, _, _, _, _⟩ := expansion_props _ (Or.inr hD)
      have ht : tokFix t = tableFun directionalTable t := by
        unfold tokFix
        rw [hS, p3]
      rw [ht]
      unfold tokFix
      rw [p1, p2, p3]
  · obtain ⟨p1, p2, p3, _, _, _, _⟩ := expansion_props _ (Or.inl hS)
    have ht : tokFix t = tableFun streetSuffixTable t := by
      unfold tokFix
      rw [p2, p3]
    rw [ht]
    unfold tokFix
    rw [p1, p2, p3]

/-- The leading-zero fix introduces no unit marker. -/
theorem noMarkerTok_zfix (t : List Char) (h : noMarkerTok t = true) :
    noMarkerTok (zfix t) = true := by
  rcases zfix_spec t with hz | ⟨_, hz | hz⟩
  · rw [hz]
    exact h
  · rw [hz]
    decide
  · rw [hz]
    unfold noMarkerTok at h ⊢
    rw [List.all_eq_true] at h ⊢
    intro m hm
    have hmt := h m hm
    simp only [Bool.not_eq_true'] at hmt ⊢
    exact containsSub_false_mono (List.IsSuffix.isInfix (List.dropWhile_suffix _)) hmt

/-- The composite token pass introduces no unit marker. -/
theorem noMarkerTok_tokFix (t : List Char) (h : noMarkerTok t = true) :
    noMarkerTok (tokFix t) = true := by
  rcases tableFun_eq_self_or_mem streetSuffixTable t with hS | hS
  · rcases tableFun_eq_self_or_mem directionalTable t with hD | hD
    · unfold tokFix
      rw [hS, hD]
      exact noMarkerTok_zfix t h
    · obtain ⟨_, _, p3, p4, _, _, _⟩ := expansion_props _ (Or.inr hD)
      unfold tokFix
      rw [hS, p3]
      exact p4
  · obtain ⟨_, p2, p3, p4, _, _, _⟩ := expansion_props _ (Or.inl hS)
    unfold tokFix
    rw [p2, p3]
    exact p4

/-- The composite token pass sends nonempty word runs to nonempty word
runs. -/
theorem tokFix_token (t : List Char) (hne : t ≠ []) (hw : t.all isWordChar = true) :
    tokFix t ≠ [] ∧ (tokFix t).all isWordChar = true := by
  rcases tableFun_eq_self_or_mem streetSuffixTable t with hS | hS
  · rcases tableFun_eq_self_or_mem directionalTable t with hD | hD
    · have ht : tokFix t = zfix t := by
        unfold tokFix
        rw [hS, hD]
      rw [ht]
      exact zfix_token t hne hw
    · obtain ⟨_, _, p3, _, _, p6, p7⟩ := expansion_props _ (Or.inr hD)
      have ht : tokFix t = tableFun directionalTable t := by
        unfold tokFix
        rw [hS, p3]
      rw [ht]
      exact ⟨p6, p7⟩
  · obtain ⟨_, p2, p3, _, _, p6, p7⟩ := expansion_props _ (Or.inl hS)
    have ht : tokFix t = tableFun streetSuffixTable t := by
      unfold tokFix
      rw [p2, p3]
    rw [ht]
    exact ⟨p6, p7⟩

/-- The composite token pass preserves the plain alphabet. -/
theorem tokFix_good (t : List Char) (h : t.all goodChar = true) :
    (tokFix t).all goodChar = true := by
  rcases tableFun_eq_self_or_mem streetSuffixTable t with hS | hS
  · rcases tableFun_eq_self_or_mem directionalTable t with hD | hD
    · have ht : tokFix t = zfix t := by
        unfold tokFix
        rw [hS, hD]
      rw [ht]
      exact zfix_all goodChar (by decide) t h
    · obtain ⟨_, _, p3, _, p5, _, _⟩ := expansion_props _ (Or.inr hD)
      have ht : tokFix t = tableFun directionalTable t := by
        unfold tokFix
        rw [hS, p3]
      rw [ht]
      exact p5
  · obtain ⟨_, p2, p3, _, p5, _, _⟩ := expansion_props _ (Or.inl hS)
    have ht : tokFix t = tableFun streetSuffixTable t := by
      unfold tokFix
      rw [p2, p3]
    rw [ht]
    exact p5


/-! ## C8 supporting lemmas: the unit substitution fixes marker-free
strings -/

/-- Removing the head cannot create a substring occurrence. -/
theorem containsSub_tail_false {c : Char} {t n : List Char}
    (h : containsSub (c :: t) n = false) : containsSub t n = false := by
  by_cases hc : containsSub t n = true
  · rw [containsSub_cons c hc] at h
    simp at h
  · simpa using hc

/-- Marker freedom passes to the tail. -/
theorem noUnitMarkers_tail {c : Char} {cs : List Char} (h : noUnitMarkers (c :: cs) = true) :
    noUnitMarkers cs = true := by
  simp only [noUnitMarkers, Bool.not_eq_true', Bool.or_eq_false_iff] at h ⊢
  exact ⟨⟨⟨containsSub_tail_false h.1.1.1, containsSub_tail_false h.1.1.2⟩,
    containsSub_tail_false h.1.2⟩, containsSub_tail_false h.2⟩

/-- The unit scan of the empty string is empty at any fuel. -/
theorem unitScanF_nil (fuel : ℕ) (prev : Option Char) (skip : Bool) :
    unitScanF fuel prev skip [] = [] := by
  cases fuel <;> rfl

/-- A string starting with the UNIT marker is not marker free. -/
theorem noUnitMarkers_unit_absurd (rest : List Char)
    (hm : noUnitMarkers ('U' :: 'N' :: 'I' :: 'T' :: rest) = true) : False := by
  have hp : (['U','N','I','T']).isPrefixOf ('U' :: 'N' :: 'I' :: 'T' :: rest) = true := by
    simp [List.isPrefixOf]
  have hcs := containsSub_of_isPrefixOf hp
  simp [noUnitMarkers, hcs] at hm

/-- A string starting with the APT marker is not marker free. -/
theorem noUnitMarkers_apt_absurd (rest : List Char)
    (hm : noUnitMarkers ('A' :: 'P' :: 'T' :: rest) = true) : False := by
  have hp : (['A','P','T']).isPrefixOf ('A' :: 'P' :: 'T' :: rest) = true := by
    simp [List.isPrefixOf]
  have hcs := containsSub_of_isPrefixOf hp
  simp [noUnitMarkers, hcs] at hm

/-- A string starting with the SUITE marker is not marker free. -/
theorem noUnitMarkers_suite_absurd (rest : List Char)
    (hm : noUnitMarkers ('S' :: 'U' :: 'I' :: 'T' :: 'E' :: rest) = true) : False := by
  have hp : (['S','U','I','T','E']).isPrefixOf
      ('S' :: 'U' :: 'I' :: 'T' :: 'E' :: rest) = true := by
    simp [List.isPrefixOf]
  have hcs := containsSub_of_isPrefixOf hp
  simp [noUnitMarkers, hcs] at hm

/-- A string starting with the STE marker is not marker free. -/
theorem noUnitMarkers_ste_absurd (rest : List Char)
    (hm : noUnitMarkers ('S' :: 'T' :: 'E' :: rest) = true) : False := by
  have hp : (['S','T','E']).isPrefixOf ('S' :: 'T' :: 'E' :: rest) = true := by
    simp [List.isPrefixOf]
  have hcs := containsSub_of_isPrefixOf hp
  simp [noUnitMarkers, hcs] at hm

/-- With no alphabetic marker substring and no hash sign, the unit
scan copies its input. -/
theorem unitScanF_id : ∀ (fuel : ℕ) (l : List Char) (prev : Option Char),
    l.length ≤ fuel → noUnitMarkers l = true → l.all (fun c => !(c = '#')) = true →
    unitScanF fuel prev false l = l := by
  intro fuel
  induction fuel with
  | zero =>
    intro l prev hlen _ _
    cases l with
    | nil => rfl
    | cons c cs => simp at hlen
  | succ f ih =>
    intro l prev hlen hm hh
    cases l with
    | nil => rfl
    | cons c cs =>
      have hlen2 : cs.length ≤ f := by
        simp only [List.length_cons] at hlen
        omega
      have hm2 := noUnitMarkers_tail hm
      simp only [List.all_cons, Bool.and_eq_true] at hh
      have hhc : ¬ c = '#' := by simpa using hh.1
      have hh2 : cs.all (fun c => !(c = '#')) = true := hh.2
      unfold unitScanF
      rw [if_neg (show ¬ ((false && pyIsSpace c) = true) from by simp)]
      split
      · next hU =>
        subst hU
        split
        · exact (noUnitMarkers_unit_absurd _ hm).elim
        · exact congrArg _ (ih cs (some 'U') hlen2 hm2 hh2)
      · next hU =>
        split
        · next hA =>
          subst hA
          split
          · exact (noUnitMarkers_apt_absurd _ hm).elim
          · exact congrArg _ (ih cs (some 'A') hlen2 hm2 hh2)
        · next hA =>
          split
          · next hS =>
            subst hS
            split
            · exact (noUnitMarkers_suite_absurd _ hm).elim
            · exact (noUnitMarkers_ste_absurd _ hm).elim
            · exact congrArg _ (ih cs (some 'S') hlen2 hm2 hh2)
          · next hS =>
            exact congrArg _ (ih cs (some c) hlen2 hm2 hh2)

/-- The unit substitution fixes marker-free, hash-free strings. -/
theorem unitSub_id (l : List Char) (hm : noUnitMarkers l = true)
    (hh : l.all (fun c => !(c = '#')) = true) : unitSub l = l :=
  unitScanF_id l.length l none (le_refl _) hm hh


/-! ## C8 supporting lemmas: pipeline assembly -/

/-- Uppercasing fixes strings over the plain alphabet. -/
theorem map_pyUpper_id : ∀ l : List Char, l.all goodChar = true → l.map pyUpper = l := by
  intro l
  induction l with
  | nil =>
    intro _
    rfl
  | cons c cs ih =>
    intro h
    simp only [List.all_cons, Bool.and_eq_true] at h
    simp only [List.map_cons, pyUpper_goodChar h.1, ih h.2]

/-- A character predicate restricts to infixes. -/
theorem all_infix {P : Char → Bool} {a b : List Char} (hinf : a <:+: b)
    (h : b.all P = true) : a.all P = true := by
  rw [List.all_eq_true] at h ⊢
  exact fun x hx => h x (hinf.subset hx)

/-- Every plain character survives the punctuation filter. -/
theorem good_passes {c : Char} (h : goodChar c = true) :
    (isWordChar c || pyIsSpace c || c = '-') = true := by
  simp only [goodChar, Bool.or_eq_true, decide_eq_true_eq] at h
  rcases h with ((hu | hd) | rfl) | rfl
  · simp [isWordChar, Char.isAlphanum, Char.isAlpha, hu]
  · simp [isWordChar, Char.isAlphanum, hd]
  · decide
  · decide

/-- The punctuation filter fixes plain strings. -/
theorem punctFilter_id (l : List Char) (h : l.all goodChar = true) : punctFilter l = l := by
  unfold punctFilter
  rw [List.filter_eq_self]
  intro a ha
  exact good_passes (List.all_eq_true.mp h a ha)

/-- Whitespace collapsing creates no new all-word substring. -/
theorem containsSub_collapse_false {m : List Char} (hmw : m.all isWordChar = true)
    (hne : m ≠ []) {l : List Char} {flag : Bool} (h : containsSub l m = false) :
    containsSub (collapseAux flag l) m = false := by
  by_cases hc : containsSub (collapseAux flag l) m = true
  · exact absurd (collapseAux_infix_reflect hmw hne l flag hc) (by simp [h])
  · simpa using hc

/-- Whitespace collapsing preserves marker freedom. -/
theorem noUnitMarkers_collapse (flag : Bool) (l : List Char) (h : noUnitMarkers l = true) :
    noUnitMarkers (collapseAux flag l) = true := by
  simp only [noUnitMarkers, Bool.not_eq_true', Bool.or_eq_false_iff] at h ⊢
  exact ⟨⟨⟨containsSub_collapse_false (by decide) (by simp) h.1.1.1,
    containsSub_collapse_false (by decide) (by simp) h.1.1.2⟩,
    containsSub_collapse_false (by decide) (by simp) h.1.2⟩,
    containsSub_collapse_false (by decide) (by simp) h.2⟩

/-- A suffix of a list without adjacent whitespace separators has
none either. -/
theorem noDbl_suffix : ∀ (as bs : List Chunk),
    noDblSpaceChunks (as ++ bs) = true → noDblSpaceChunks bs = true := by
  intro as
  induction as with
  | nil =>
    intro bs h
    exact h
  | cons ch rest ih =>
    intro bs h
    exact ih bs (noDbl_tail _ _ h)

/-- The two phrasings of marker freedom agree. -/
theorem noUnitMarkers_eq_noMarkerTok (l : List Char) : noUnitMarkers l = noMarkerTok l := by
  unfold noUnitMarkers noMarkerTok markers4
  simp only [List.all_cons, List.all_nil]
  cases containsSub l ['U','N','I','T'] <;> cases containsSub l ['A','P','T'] <;>
    cases containsSub l ['S','U','I','T','E'] <;> cases containsSub l ['S','T','E'] <;> rfl

/-- The street-suffix pass sends nonempty word runs to nonempty word
runs. -/
theorem tableFunS_token (t : List Char) (hne : t ≠ []) (hw : t.all isWordChar = true) :
    tableFun streetSuffixTable t ≠ [] ∧ (tableFun streetSuffixTable t).all isWordChar = true := by
  rcases tableFun_eq_self_or_mem streetSuffixTable t with h | h
  · rw [h]
    exact ⟨hne, hw⟩
  · obtain ⟨_, _, _, _, _, p6, p7⟩ := expansion_props _ (Or.inl h)
    exact ⟨p6, p7⟩

/-- The directional pass sends nonempty word runs to nonempty word
runs. -/
theorem tableFunD_token (t : List Char) (hne : t ≠ []) (hw : t.all isWordChar = true) :
    tableFun directionalTable t ≠ [] ∧ (tableFun directionalTable t).all isWordChar = true := by
  rcases tableFun_eq_self_or_mem directionalTable t with h | h
  · rw [h]
    exact ⟨hne, hw⟩
  · obtain ⟨_, _, _, _, _, p6, p7⟩ := expansion_props _ (Or.inr h)
    exact ⟨p6, p7⟩

/-- A sequence of whole-word substitutions acts tokenwise on a
well-formed chunk list. -/
theorem applyTable_eq_map (table : List (List Char × List Char))
    (hok : ∀ p ∈ table, p.1 ≠ [] ∧ p.1.all isWordChar = true
      ∧ p.2 ≠ [] ∧ p.2.all isWordChar = true) :
    ∀ (cs : List Chunk), chunksWF cs = true →
      applyTable table (joinChunks cs) = joinChunks (cs.map (mapWord (tableFun table))) := by
  induction table with
  | nil =>
    intro cs _
    show joinChunks cs = joinChunks (cs.map (mapWord (tableFun [])))
    have hid : cs.map (mapWord (tableFun [])) = cs := by
      have h : ∀ ch ∈ cs, mapWord (tableFun []) ch = id ch := fun ch _ => by cases ch <;> rfl
      rw [List.map_congr_left h, List.map_id]
    rw [hid]
  | cons p ps ih =>
    intro cs hwf
    obtain ⟨h1, h2, h3, h4⟩ := hok p (List.mem_cons_self _ _)
    have hok2 : ∀ q ∈ ps, q.1 ≠ [] ∧ q.1.all isWordChar = true
        ∧ q.2 ≠ [] ∧ q.2.all isWordChar = true :=
      fun q hq => hok q (List.mem_cons_of_mem _ hq)
    have hf : ∀ t : List Char, t ≠ [] → t.all isWordChar = true →
        (if t = p.1 then p.2 else t) ≠ []
          ∧ (if t = p.1 then p.2 else t).all isWordChar = true := by
      intro t htne htw
      by_cases he : t = p.1
      · rw [if_pos he]
        exact ⟨h3, h4⟩
      · rw [if_neg he]
        exact ⟨htne, htw⟩
    have hwf2 : chunksWF (cs.map (mapWord (fun t => if t = p.1 then p.2 else t))) = true :=
      chunksWF_map _ hf cs hwf
    show applyTable ps (replaceWord p.1 p.2 (joinChunks cs))
        = joinChunks (cs.map (mapWord (tableFun (p :: ps))))
    have hrw : replaceWord p.1 p.2 (joinChunks cs)
        = joinChunks (cs.map (mapWord (fun t => if t = p.1 then p.2 else t))) := by
      unfold replaceWord
      rw [rechunk cs hwf]
    rw [hrw, ih hok2 _ hwf2, List.map_map]
    congr 1
    apply List.map_congr_left
    intro ch _
    cases ch <;> rfl

set_option maxHeartbeats 1000000 in
/-- The suffix, directional and zero passes together act tokenwise. -/
theorem pipeline_tokens (l : List Char) :
    stripZeros (applyTable directionalTable (applyTable streetSuffixTable l))
      = joinChunks ((chunks l).map (mapWord tokFix)) := by
  have hokS : ∀ p ∈ streetSuffixTable, p.1 ≠ [] ∧ p.1.all isWordChar = true
      ∧ p.2 ≠ [] ∧ p.2.all isWordChar = true := by decide
  have hokD : ∀ p ∈ directionalTable, p.1 ≠ [] ∧ p.1.all isWordChar = true
      ∧ p.2 ≠ [] ∧ p.2.all isWordChar = true := by decide
  have hcs := chunks_wf l
  have h1 : applyTable streetSuffixTable l
      = joinChunks ((chunks l).map (mapWord (tableFun streetSuffixTable))) := by
    have h := applyTable_eq_map streetSuffixTable hokS (chunks l) hcs
    rw [join_chunks] at h
    exact h
  have hwf1 : chunksWF ((chunks l).map (mapWord (tableFun streetSuffixTable))) = true :=
    chunksWF_map _ (fun t ha hb => tableFunS_token t ha hb) (chunks l) hcs
  have h2 : applyTable directionalTable (applyTable streetSuffixTable l)
      = joinChunks (((chunks l).map (mapWord (tableFun streetSuffixTable))).map
          (mapWord (tableFun directionalTable))) := by
    rw [h1]
    exact applyTable_eq_map directionalTable hokD _ hwf1
  have hwf2 : chunksWF (((chunks l).map (mapWord (tableFun streetSuffixTable))).map
      (mapWord (tableFun directionalTable))) = true :=
    chunksWF_map _ (fun t ha hb => tableFunD_token t ha hb) _ hwf1
  rw [h2]
  unfold stripZeros
  rw [rechunk _ hwf2, List.map_map, List.map_map]
  refine congrArg joinChunks ?_
  apply List.map_congr_left
  intro ch _
  cases ch <;> rfl

set_option maxHeartbeats 1000000 in
/-- Marker freedom survives the tokenwise pass. -/
theorem noUnitMarkers_join_map (x : List Char) (hmx : noUnitMarkers x = true) :
    noUnitMarkers (joinChunks ((chunks x).map (mapWord tokFix))) = true := by
  have hwf6 : chunksWF ((chunks x).map (mapWord tokFix)) = true :=
    chunksWF_map tokFix (fun t h1 h2 => tokFix_token t h1 h2) (chunks x) (chunks_wf x)
  have hmprops : ∀ m ∈ markers4, m.all isWordChar = true ∧ ¬ m = [] := by decide
  rw [noUnitMarkers_eq_noMarkerTok] at hmx ⊢
  simp only [noMarkerTok] at hmx ⊢
  rw [List.all_eq_true] at hmx ⊢
  intro m hmem
  simp only [Bool.not_eq_true']
  by_cases hc : containsSub (joinChunks ((chunks x).map (mapWord tokFix))) m = true
  · obtain ⟨hmw, hmne⟩ := hmprops m hmem
    obtain ⟨t, htmem, hts⟩ := containsSub_token _ m hmw hmne hc
    rw [rechunk _ hwf6] at htmem
    rw [List.mem_map] at htmem
    obtain ⟨ch, hch, he⟩ := htmem
    cases ch with
    | word s =>
      simp only [mapWord] at he
      have he2 : tokFix s = t := Chunk.word.inj he
      have hs : noMarkerTok s = true := by
        simp only [noMarkerTok]
        rw [List.all_eq_true]
        intro m2 hm2
        simp only [Bool.not_eq_true']
        have hsinf : s <:+: x := by
          have hti := token_infix (chunks x) s hch
          rw [join_chunks] at hti
          exact hti
        have hx2 : containsSub x m2 = false := by
          have := hmx m2 hm2
          simpa using this
        exact containsSub_false_mono hsinf hx2
      have hfix := noMarkerTok_tokFix s hs
      simp only [noMarkerTok] at hfix
      rw [List.all_eq_true] at hfix
      have h2 := hfix m hmem
      simp only [Bool.not_eq_true'] at h2
      rw [← he2] at hts
      exact absurd hts (by simp [h2])
    | sep c =>
      simp [mapWord] at he
  · simpa using hc


/-- Normalization fixes the join of a well-formed, marker-free,
token-fixed, stripped chunk list over the plain alphabet. -/
theorem normalize_fix (cs : List Chunk) (hwf : chunksWF cs = true)
    (hnd : noDblSpaceChunks cs = true)
    (hfix : ∀ t, Chunk.word t ∈ cs → tokFix t = t)
    (hall : (joinChunks cs).all goodChar = true)
    (hm : noUnitMarkers (joinChunks cs) = true)
    (hstripped : stripChars (joinChunks cs) = joinChunks cs) :
    normalizeChars (joinChunks cs) = joinChunks cs := by
  by_cases he : (joinChunks cs).isEmpty = true
  · unfold normalizeChars
    rw [if_pos he]
    exact (List.isEmpty_iff.mp he).symm
  · have hsep : ∀ c, Chunk.sep c ∈ cs → pyIsSpace c = true → c = ' ' := by
      intro c hc hs
      have hcs_all : cs.all (chunkAll goodChar) = true := by
        rw [← join_all]
        exact hall
      have hg := List.all_eq_true.mp hcs_all _ hc
      exact goodChar_space hg hs
    have hcw : collapseWs (joinChunks cs) = joinChunks cs := collapse_join cs hwf hnd hsep
    have hmap : cs.map (mapWord tokFix) = cs := by
      have h : ∀ ch ∈ cs, mapWord tokFix ch = id ch := by
        intro ch hch
        cases ch with
        | word t =>
          show Chunk.word (tokFix t) = Chunk.word t
          rw [hfix t hch]
        | sep c => rfl
      rw [List.map_congr_left h, List.map_id]
    have hnh : (joinChunks cs).all (fun c => !(c = '#')) = true := by
      rw [List.all_eq_true] at hall ⊢
      intro c hcm
      simpa using goodChar_not_hash (hall c hcm)
    unfold normalizeChars
    rw [if_neg he, map_pyUpper_id _ hall, hstripped, hcw, punctFilter_id _ hall,
      pipeline_tokens, rechunk cs hwf, hmap, unitSub_id _ hm hnh, hstripped]

/-- The token, unit and strip passes send any plain marker-free input
to a fixed point of normalization. -/
theorem pipeline_strip_fix (x : List Char) (hgx : x.all goodChar = true)
    (hmx : noUnitMarkers x = true) (hndx : noDblSpace x) :
    normalizeChars (stripChars (unitSub (stripZeros (applyTable directionalTable
      (applyTable streetSuffixTable x)))))
    = stripChars (unitSub (stripZeros (applyTable directionalTable
      (applyTable streetSuffixTable x)))) := by
  have hwf6 : chunksWF ((chunks x).map (mapWord tokFix)) = true :=
    chunksWF_map tokFix (fun t a b => tokFix_token t a b) (chunks x) (chunks_wf x)
  have hnd6 : noDblSpaceChunks ((chunks x).map (mapWord tokFix)) = true := by
    rw [noDbl_map]
    exact noDbl_of_chain x hndx
  have hall6 : (joinChunks ((chunks x).map (mapWord tokFix))).all goodChar = true := by
    rw [join_all]
    have hx2 : (chunks x).all (chunkAll goodChar) = true := by
      rw [← join_all, join_chunks]
      exact hgx
    rw [List.all_eq_true] at hx2 ⊢
    intro ch hch
    rw [List.mem_map] at hch
    obtain ⟨ch0, hch0, rfl⟩ := hch
    have hc0 := hx2 ch0 hch0
    cases ch0 with
    | word s => exact tokFix_good s hc0
    | sep c => exact hc0
  have hm6 : noUnitMarkers (joinChunks ((chunks x).map (mapWord tokFix))) = true :=
    noUnitMarkers_join_map x hmx
  have hnh6 : (joinChunks ((chunks x).map (mapWord tokFix))).all (fun c => !(c = '#')) = true := by
    rw [List.all_eq_true] at hall6 ⊢
    intro c hcm
    simpa using goodChar_not_hash (hall6 c hcm)
  have hrw : stripZeros (applyTable directionalTable (applyTable streetSuffixTable x))
      = joinChunks ((chunks x).map (mapWord tokFix)) := pipeline_tokens x
  rw [hrw, unitSub_id _ hm6 hnh6]
  have hwfd : chunksWF (((chunks x).map (mapWord tokFix)).dropWhile chunkSpace) = true :=
    chunksWF_dropWhile chunkSpace _ hwf6
  have hstrip : stripChars (joinChunks ((chunks x).map (mapWord tokFix)))
      = joinChunks ((((chunks x).map (mapWord tokFix)).dropWhile chunkSpace).rdropWhile
          chunkSpace) := by
    rw [stripChars_eq_rdrop, join_dropWhile _ hwf6, join_rdropWhile _ hwfd]
  obtain ⟨ds, hds⟩ :=
    List.rdropWhile_prefix chunkSpace (((chunks x).map (mapWord tokFix)).dropWhile chunkSpace)
  obtain ⟨pre, hpre⟩ := List.dropWhile_suffix (l := (chunks x).map (mapWord tokFix)) chunkSpace
  rw [hstrip]
  apply normalize_fix
  · rw [← hds] at hwfd
    exact chunksWF_append_left _ _ hwfd
  · have hndd : noDblSpaceChunks (((chunks x).map (mapWord tokFix)).dropWhile chunkSpace)
        = true := by
      rw [← hpre] at hnd6
      exact noDbl_suffix pre _ hnd6
    rw [← hds] at hndd
    exact noDbl_append_left _ _ hndd
  · intro t ht
    have ht6 : Chunk.word t ∈ (chunks x).map (mapWord tokFix) := by
      rw [← hpre]
      apply List.mem_append_right
      rw [← hds]
      exact List.mem_append_left _ ht
    rw [List.mem_map] at ht6
    obtain ⟨ch, hch, he⟩ := ht6
    cases ch with
    | word s =>
      simp only [mapWord] at he
      have he2 : tokFix s = t := Chunk.word.inj he
      rw [← he2, tokFix_idem]
    | sep c => simp [mapWord] at he
  · rw [← hstrip]
    exact all_infix (stripChars_isInfix _) hall6
  · rw [← hstrip]
    exact noUnitMarkers_of_infix (stripChars_isInfix _) hm6
  · rw [← hstrip]
    exact stripChars_idem _

/-- Normalization is idempotent on marker-free strings over uppercase
letters, digits, spaces and hyphens. -/
theorem normalizeChars_idem_good (l : List Char) (hg : l.all goodChar = true)
    (hm : noUnitMarkers l = true) :
    normalizeChars (normalizeChars l) = normalizeChars l := by
  by_cases hln : l.isEmpty = true
  · have h0 : l = [] := List.isEmpty_iff.mp hln
    subst h0
    rfl
  · have hg1 : (stripChars l).all goodChar = true := all_infix (stripChars_isInfix l) hg
    have hm1 : noUnitMarkers (stripChars l) = true :=
      noUnitMarkers_of_infix (stripChars_isInfix l) hm
    have hgx : (collapseWs (stripChars l)).all goodChar = true :=
      collapseAux_all (by decide) (stripChars l) false hg1
    have hmx : noUnitMarkers (collapseWs (stripChars l)) = true :=
      noUnitMarkers_collapse false (stripChars l) hm1
    have hndx : noDblSpace (collapseWs (stripChars l)) :=
      (collapseAux_nodbl (stripChars l)).1 false
    have hfirst : normalizeChars l
        = stripChars (unitSub (stripZeros (applyTable directionalTable
            (applyTable streetSuffixTable (collapseWs (stripChars l)))))) := by
      unfold normalizeChars
      rw [if_neg hln, map_pyUpper_id l hg, punctFilter_id _ hgx]
    rw [hfirst]
    exact pipeline_strip_fix (collapseWs (stripChars l)) hgx hmx hndx

/-- C8 (amended): address normalization is not idempotent in general
(see the counterexample theorem), but it is idempotent on every string
built from uppercase letters, digits, spaces and hyphens that contains
none of the marker substrings UNIT, APT, SUITE, STE: for such inputs,
normalize_address (normalize_address s) = normalize_address s. -/
theorem C8_idempotent_on_plain (s : String) (hg : s.data.all goodChar = true)
    (hm : noUnitMarkers s.data = true) :
    normalize_address (normalize_address s) = normalize_address s := by
  unfold normalize_address
  exact congrArg String.mk (normalizeChars_idem_good s.data hg hm)

/-- Witness: the concrete plain address 100 MAIN ST satisfies both
hypotheses and normalization is idempotent on it. -/
theorem C8_idempotent_on_plain_witness :
    ("100 MAIN ST".data.all goodChar = true
      ∧ noUnitMarkers "100 MAIN ST".data = true)
    ∧ normalize_address (normalize_address "100 MAIN ST") = normalize_address "100 MAIN ST" :=
  ⟨⟨by decide, by decide⟩,
    C8_idempotent_on_plain "100 MAIN ST" (by decide) (by decide)⟩

end Fastpeer
